import Mathlib

/-!
Verification of the trustpilot_poc ingestion pipeline.

This file gives a shallow embedding, in Lean 4, of the parts of the
repository that the specification's claims are about:

* `app/dq_rules.py` — date normalization (`parse_date_to_iso_utc`),
  rating coercion (`coerce_int`), row validation (`validate_row`) and
  intra-file duplicate detection (`validate_batch`);
* `app/ingest.py` — the PII redactors (`email_hash_value`, `redact_name`,
  `redact_ip`), the SQL upserts (`upsert_business`, `upsert_user`,
  `upsert_review`), the per-file orchestrator (`process_file`), the
  quarantine writer and the XLSX reader's cell conversion;
* `app/models.py` — the table constraints the upserts run against and the
  `v_reviews_private` read projection;
* `app/db.py` — the commit/rollback behaviour of `connect()`.

Python-level primitives that the source relies on (`str.strip`, `int(...)`,
`float(...)`, `datetime.fromisoformat`, `datetime.strptime`,
`datetime.isoformat`, `ipaddress.ip_address`, the two `re` patterns) are
modelled as executable Lean functions translated from their documented
CPython behaviour (CPython 3.10 for `fromisoformat`, which is the dialect
the source's own Z-stripping and offset-colon normalization target).
Machine integers do not occur (Python integers are unbounded); the one
SHA-256 digest is kept abstract as a function parameter, since no claim
depends on anything but applying it.
-/

namespace TP

/-! ## Python string primitives -/

/-- Whitespace characters recognised by Python's `str.strip()` / `\s`
(ASCII subset; the repository's data is ASCII). -/
def isPySpace (c : Char) : Bool :=
  c = ' ' || c = '\t' || c = '\n' || c = '\x0d' || c = '\x0b' || c = '\x0c'

/-- Strip leading and trailing whitespace from a character list,
modelling Python's `str.strip()`. -/
def stripChars (l : List Char) : List Char :=
  ((l.dropWhile isPySpace).reverse.dropWhile isPySpace).reverse

/-- Python `str.strip()` on a `String`. -/
def pyStrip (s : String) : String :=
  ⟨stripChars s.data⟩

/-- Value of a decimal digit character. -/
def digitVal (c : Char) : Nat := c.toNat - 48

/-- Decimal digit character for a value below 10. -/
def digitChar (d : Nat) : Char := Char.ofNat (48 + d)

/-- Parse a nonempty run of decimal digits, allowing single underscores
between digits, as Python's `int()` literal grammar does
(`int("1_2") = 12`, `int("1__2")` and `int("_1")` fail). -/
def parseDigitsU : List Char → Option Nat
  | [] => none
  | c :: rest =>
    if c.isDigit then goDigits (digitVal c) rest else none
where
  goDigits : Nat → List Char → Option Nat
    | acc, [] => some acc
    | acc, c :: rest =>
      if c.isDigit then goDigits (acc * 10 + digitVal c) rest
      else if c = '_' then
        match rest with
        | [] => none
        | d :: rest2 =>
          if d.isDigit then goDigits (acc * 10 + digitVal d) rest2 else none
      else none

/-- Python `int(s)` for a string: optional surrounding whitespace, optional
sign, then digits (with underscore separators). Returns `none` where Python
raises `ValueError`. -/
def pyInt (s : String) : Option Int :=
  match stripChars s.data with
  | '+' :: r => (parseDigitsU r).map Int.ofNat
  | '-' :: r => (parseDigitsU r).map (fun n => -(n : Int))
  | r => (parseDigitsU r).map Int.ofNat

/-- Fixed-width two-digit decimal rendering (`%02d` for values below 100). -/
def pad2 (n : Nat) : List Char := [digitChar (n / 10 % 10), digitChar (n % 10)]

/-- Fixed-width four-digit decimal rendering (`%04d` for values below 10000). -/
def pad4 (n : Nat) : List Char :=
  [digitChar (n / 1000 % 10), digitChar (n / 100 % 10),
   digitChar (n / 10 % 10), digitChar (n % 10)]

/-! ## Datetime model

A shallow model of the slice of `datetime` that `app/dq_rules.py` and
`app/ingest.py` use: naive or fixed-offset-aware timestamps with
microsecond precision. `tz = none` is a naive datetime; `tz = some off` is
an aware one whose UTC offset is `off` microseconds. -/

structure DT where
  year : Nat
  month : Nat
  day : Nat
  hour : Nat
  minute : Nat
  second : Nat
  micro : Nat
  tz : Option Int
deriving DecidableEq, Repr

/-- Gregorian leap-year test, as `datetime` uses. -/
def isLeap (y : Nat) : Bool := y % 4 = 0 && (y % 100 != 0 || y % 400 = 0)

/-- Length of a month, as `datetime` uses. -/
def daysInMonth (y m : Nat) : Nat :=
  match m with
  | 1 => 31 | 2 => if isLeap y then 29 else 28 | 3 => 31 | 4 => 30
  | 5 => 31 | 6 => 30 | 7 => 31 | 8 => 31 | 9 => 30 | 10 => 31
  | 11 => 30 | 12 => 31 | _ => 0

/-- The `datetime` constructor: validates every component range
(`MINYEAR = 1`, `MAXYEAR = 9999`) and returns `none` where Python raises
`ValueError`. The timezone object itself is validated where it is built
(`parseIsoTime`), matching `timezone.__new__`. -/
def mkDT (y mo da h mi se us : Int) (tz : Option Int) : Option DT :=
  if 1 ≤ y ∧ y ≤ 9999 ∧ 1 ≤ mo ∧ mo ≤ 12 ∧ 1 ≤ da ∧
     da ≤ (daysInMonth y.toNat mo.toNat : Int) ∧ 0 ≤ h ∧ h ≤ 23 ∧
     0 ≤ mi ∧ mi ≤ 59 ∧ 0 ≤ se ∧ se ≤ 59 ∧ 0 ≤ us ∧ us ≤ 999999 then
    some ⟨y.toNat, mo.toNat, da.toNat, h.toNat, mi.toNat, se.toNat, us.toNat, tz⟩
  else none

/-- Days since 1970-01-01 of a civil date (Hinnant's algorithm, the same
arithmetic `datetime`'s ordinal conversion computes; all divisions are on
nonnegative operands in the reachable range, where truncating and floor
division agree). -/
def daysFromCivil (y mo da : Int) : Int :=
  let y2 := if mo ≤ 2 then y - 1 else y
  let era := (if 0 ≤ y2 then y2 else y2 - 399) / 400
  let yoe := y2 - era * 400
  let doy := (153 * (if 2 < mo then mo - 3 else mo + 9) + 2) / 5 + da - 1
  let doe := yoe * 365 + yoe / 4 - yoe / 100 + doy
  era * 146097 + doe - 719468

/-- Civil date of a day count since 1970-01-01 (inverse of
`daysFromCivil`). -/
def civilFromDays (z0 : Int) : Int × Int × Int :=
  let z := z0 + 719468
  let era := (if 0 ≤ z then z else z - 146096) / 146097
  let doe := z - era * 146097
  let yoe := (doe - doe / 1460 + doe / 36524 - doe / 146096) / 365
  let y := yoe + era * 400
  let doy := doe - (365 * yoe + yoe / 4 - yoe / 100)
  let mp := (5 * doy + 2) / 153
  let da := doy - (153 * mp + 2) / 5 + 1
  let mo := if mp < 10 then mp + 3 else mp - 9
  (if mo ≤ 2 then y + 1 else y, mo, da)

/-- Microseconds since 1970-01-01T00:00:00 of the naive reading of a
datetime's fields. -/
def dtNaiveMicro (dt : DT) : Int :=
  daysFromCivil dt.year dt.month dt.day * 86400000000
    + ((dt.hour * 60 + dt.minute) * 60 + dt.second : Int) * 1000000 + dt.micro

/-- The datetime `astimezone(timezone.utc)` conversion of an aware datetime
whose UTC offset is `off` microseconds. The result is revalidated through
`mkDT` (datetime arithmetic always produces in-range fields; Python raises
`OverflowError` exactly when the year leaves `[1, 9999]`, which the
`mkDT` check performs). -/
def astimezoneUtc (dt : DT) (off : Int) : Option DT :=
  let u := dtNaiveMicro dt - off
  let days := u.ediv 86400000000
  let rem := u.emod 86400000000
  let c := civilFromDays days
  let secs := rem / 1000000
  let us := rem % 1000000
  mkDT c.1 c.2.1 c.2.2 (secs / 3600) (secs % 3600 / 60) (secs % 60) us (some 0)

/-- The 19 characters `YYYY-MM-DDTHH:MM:SS` shared by `isoformat()` and
`strftime("%Y-%m-%dT%H:%M:%S")`. -/
def fmtStamp (y mo da h mi s : Nat) : List Char :=
  pad4 y ++ '-' :: (pad2 mo ++ '-' :: (pad2 da ++ 'T' ::
    (pad2 h ++ ':' :: (pad2 mi ++ ':' :: pad2 s))))

/-- The characters of `dt.isoformat()` for a whole-second UTC datetime,
with the `+00:00` suffix already rewritten to `Z` — the serialization
`parse_date_to_iso_utc` returns. -/
def fmtList (y mo da h mi s : Nat) : List Char :=
  fmtStamp y mo da h mi s ++ ['Z']

/-- Models `dt.replace(microsecond=0).isoformat().replace("+00:00", "Z")`
for the UTC-aware datetimes reaching the return statements of
`parse_date_to_iso_utc`. -/
def finishIso (dt : DT) : String :=
  ⟨fmtList dt.year dt.month dt.day dt.hour dt.minute dt.second⟩

/-! ### CPython 3.10 `datetime.fromisoformat` -/

/-- CPython's `_parse_hh_mm_ss_ff`: `HH[:MM[:SS[.fff[fff]]]]` parsed by
fixed-position two-character slices fed to `int()`, then an optional 3- or
6-digit microsecond field. Values are not range-checked here (the
`datetime` constructor, or the timezone bound, does that later), exactly as
in CPython. -/
def parseHMSF (t : List Char) : Option (Int × Int × Int × Int) :=
  if t.length < 2 then none else
  (pyInt ⟨t.take 2⟩).bind fun h =>
  match t.drop 2 with
  | [] => some (h, 0, 0, 0)
  | c :: rest =>
    if c ≠ ':' then none else
    if rest.length < 2 then none else
    (pyInt ⟨rest.take 2⟩).bind fun mi =>
    match rest.drop 2 with
    | [] => some (h, mi, 0, 0)
    | c2 :: rest2 =>
      if c2 ≠ ':' then none else
      if rest2.length < 2 then none else
      (pyInt ⟨rest2.take 2⟩).bind fun se =>
      match rest2.drop 2 with
      | [] => some (h, mi, se, 0)
      | c3 :: rest3 =>
        if c3 ≠ '.' then none else
        if rest3.length = 3 then (pyInt ⟨rest3⟩).map fun f => (h, mi, se, f * 1000)
        else if rest3.length = 6 then (pyInt ⟨rest3⟩).map fun f => (h, mi, se, f)
        else none

/-- CPython's `_parse_isoformat_date` on the first ten characters:
`int` of slice `[0:4]`, a dash at index 4, `int` of `[5:7]`, a dash at
index 7, `int` of `[8:10]`. Index errors and `int()` failures both surface
as `none` (the caller of `parse_date_to_iso_utc`'s fast path catches every
exception alike). -/
def parseIsoDate (l : List Char) : Option (Int × Int × Int) :=
  (pyInt ⟨l.take 4⟩).bind fun y =>
  match l.get? 4 with
  | some '-' =>
    (pyInt ⟨(l.drop 5).take 2⟩).bind fun mo =>
    match l.get? 7 with
    | some '-' => (pyInt ⟨(l.drop 8).take 2⟩).map fun da => (y, mo, da)
    | _ => none
  | _ => none

/-- CPython's `_parse_isoformat_time`: split at the first `-` (or, failing
that, `+`), parse the left part as a time, and the remainder (which must
have length 5, 8 or 15) as a UTC offset; an all-zero offset is
`timezone.utc`, any other must lie strictly within 24 hours
(`timezone.__new__`'s check). -/
def parseIsoTime (t : List Char) : Option (Int × Int × Int × Int × Option Int) :=
  if t.length < 2 then none else
  let tzPos : Option Nat :=
    match t.indexOf? '-' with
    | some i => some i
    | none => t.indexOf? '+'
  let timestr := match tzPos with | some i => t.take i | none => t
  (parseHMSF timestr).bind fun (h, mi, se, us) =>
  match tzPos with
  | none => some (h, mi, se, us, none)
  | some i =>
    let tzstr := t.drop (i + 1)
    if tzstr.length = 5 ∨ tzstr.length = 8 ∨ tzstr.length = 15 then
      (parseHMSF tzstr).bind fun (th, tm, ts, tus) =>
        if th = 0 ∧ tm = 0 ∧ ts = 0 ∧ tus = 0 then some (h, mi, se, us, some 0)
        else
          let sign : Int := if t.get? i = some '-' then -1 else 1
          let off := sign * (((th * 60 + tm) * 60 + ts) * 1000000 + tus)
          if -86400000000 < off ∧ off < 86400000000 then some (h, mi, se, us, some off)
          else none
    else none

/-- CPython 3.10 `datetime.fromisoformat`: date from the first ten
characters, character ten (the separator) ignored, time from index eleven
onward when present. -/
def fromisoformatDT (l : List Char) : Option DT :=
  (parseIsoDate (l.take 10)).bind fun (y, mo, da) =>
  match l.drop 11 with
  | [] => mkDT y mo da 0 0 0 0 none
  | tstr => (parseIsoTime tstr).bind fun (h, mi, se, us, tz) =>
      mkDT y mo da h mi se us tz

/-! ### `datetime.strptime` for the fixed pattern list -/

/-- Fields a directive of the `_DATE_PATTERNS` formats can set. -/
inductive FField | fy | fmo | fda | fh | fmi | fs
deriving DecidableEq, Repr

/-- Tokens of a compiled `strptime` format: a literal character, a
whitespace run (`_strptime` turns literal whitespace into the regex
`\s+`), `%Y` (exactly four digits) or a one-to-two-digit numeric directive
(`%m %d %H %M %S` all compile to `\d{1,2}`). -/
inductive FTok | lit (c : Char) | wsp | y4 | num (f : FField)
deriving DecidableEq, Repr

/-- Partially filled `strptime` result, with `_strptime`'s defaults
(year 1900, month 1, day 1, midnight). -/
structure StV where
  y : Int := 1900
  mo : Int := 1
  da : Int := 1
  h : Int := 0
  mi : Int := 0
  s : Int := 0
deriving DecidableEq, Repr

def StV.set (st : StV) (f : FField) (v : Int) : StV :=
  match f with
  | FField.fy => { st with y := v }
  | FField.fmo => { st with mo := v }
  | FField.fda => { st with da := v }
  | FField.fh => { st with h := v }
  | FField.fmi => { st with mi := v }
  | FField.fs => { st with s := v }

/-- Regex-style matching of a compiled format against the whole input
(`_strptime` rejects a match that does not consume the entire string).
`\d{1,2}` directives are greedy with backtracking; the whitespace run is
matched maximally, which is equivalent to `\s+` backtracking here because
in every pattern of `_DATE_PATTERNS` the token after a whitespace run is a
digit directive. -/
def matchToks : List FTok → List Char → StV → Option StV
  | [], [], st => some st
  | [], _ :: _, _ => none
  | FTok.lit c :: toks, input, st =>
    match input with
    | c2 :: rest => if c2 = c then matchToks toks rest st else none
    | [] => none
  | FTok.wsp :: toks, input, st =>
    match input with
    | c :: _ => if isPySpace c then matchToks toks (input.dropWhile isPySpace) st else none
    | [] => none
  | FTok.y4 :: toks, input, st =>
    match input with
    | a :: b :: c :: d :: rest =>
      if a.isDigit && b.isDigit && c.isDigit && d.isDigit then
        matchToks toks rest (st.set FField.fy
          (digitVal a * 1000 + digitVal b * 100 + digitVal c * 10 + digitVal d))
      else none
    | _ => none
  | FTok.num f :: toks, input, st =>
    match input with
    | a :: b :: rest =>
      if a.isDigit then
        if b.isDigit then
          match matchToks toks rest (st.set f (10 * digitVal a + digitVal b)) with
          | some r => some r
          | none => matchToks toks (b :: rest) (st.set f (digitVal a))
        else matchToks toks (b :: rest) (st.set f (digitVal a))
      else none
    | [a] => if a.isDigit then matchToks toks [] (st.set f (digitVal a)) else none
    | [] => none

/-- The nine formats of `_DATE_PATTERNS`, compiled, in source order. -/
def datePatterns : List (List FTok) :=
  [ [FTok.y4, FTok.lit '-', FTok.num FField.fmo, FTok.lit '-', FTok.num FField.fda],
    [FTok.y4, FTok.lit '-', FTok.num FField.fmo, FTok.lit '-', FTok.num FField.fda,
     FTok.wsp, FTok.num FField.fh, FTok.lit ':', FTok.num FField.fmi,
     FTok.lit ':', FTok.num FField.fs],
    [FTok.num FField.fda, FTok.lit '/', FTok.num FField.fmo, FTok.lit '/', FTok.y4],
    [FTok.num FField.fda, FTok.lit '/', FTok.num FField.fmo, FTok.lit '/', FTok.y4,
     FTok.wsp, FTok.num FField.fh, FTok.lit ':', FTok.num FField.fmi,
     FTok.lit ':', FTok.num FField.fs],
    [FTok.num FField.fmo, FTok.lit '/', FTok.num FField.fda, FTok.lit '/', FTok.y4],
    [FTok.num FField.fmo, FTok.lit '/', FTok.num FField.fda, FTok.lit '/', FTok.y4,
     FTok.wsp, FTok.num FField.fh, FTok.lit ':', FTok.num FField.fmi,
     FTok.lit ':', FTok.num FField.fs],
    [FTok.y4, FTok.lit '-', FTok.num FField.fmo, FTok.lit '-', FTok.num FField.fda,
     FTok.lit 'T', FTok.num FField.fh, FTok.lit ':', FTok.num FField.fmi,
     FTok.lit ':', FTok.num FField.fs],
    [FTok.y4, FTok.lit '-', FTok.num FField.fmo, FTok.lit '-', FTok.num FField.fda,
     FTok.lit 'T', FTok.num FField.fh, FTok.lit ':', FTok.num FField.fmi,
     FTok.lit ':', FTok.num FField.fs, FTok.lit 'Z'],
    [FTok.y4, FTok.lit '-', FTok.num FField.fmo, FTok.lit '-', FTok.num FField.fda,
     FTok.wsp, FTok.num FField.fh, FTok.lit ':', FTok.num FField.fmi] ]

/-- One `datetime.strptime(s, pat).replace(tzinfo=timezone.utc)` attempt:
match the format, then run the `datetime` constructor on the extracted
fields. -/
def tryPattern (p : List FTok) (l : List Char) : Option DT :=
  (matchToks p l {}).bind fun st =>
    mkDT st.y st.mo st.da st.h st.mi st.s 0 (some 0)

/-- The `for pat in _DATE_PATTERNS` loop: first format that both matches
and yields a constructible datetime wins. -/
def tryPatterns : List (List FTok) → List Char → Option DT
  | [], _ => none
  | p :: ps, l =>
    match tryPattern p l with
    | some dt => some dt
    | none => tryPatterns ps l

/-! ### `parse_date_to_iso_utc` -/

/-- The `re.sub(r'([+-]\d{2})(\d{2})$', r'\1:\2', s)` offset normalization:
if the string ends in a sign followed by four digits, insert a colon before
the last two. -/
def normOffsetColon (l : List Char) : List Char :=
  let n := l.length
  if 5 ≤ n then
    match l.drop (n - 5) with
    | [s0, a, b, c, d] =>
      if (s0 = '+' || s0 = '-') && a.isDigit && b.isDigit && c.isDigit && d.isDigit then
        l.take (n - 5) ++ [s0, a, b, ':', c, d]
      else l
    | _ => l
  else l

/-- The ISO fast path of `parse_date_to_iso_utc`: strip a trailing `Z` and
force UTC, or normalize a colonless offset and parse, converting to UTC
when an offset was present and assuming UTC otherwise. Any failure inside
(`except Exception: pass`) yields `none`. -/
def fastIso (l : List Char) : Option String :=
  if l.getLast? = some 'Z' then
    (fromisoformatDT l.dropLast).map finishIso
  else
    (fromisoformatDT (normOffsetColon l)).bind fun dt =>
      match dt.tz with
      | none => some (finishIso dt)
      | some off => (astimezoneUtc dt off).map finishIso

/-- The `parse_date_to_iso_utc` function of `app/dq_rules.py`: empty input
is rejected, the input is stripped, the ISO fast path is tried, then the
fixed pattern list; every success is serialized as
`YYYY-MM-DDTHH:MM:SSZ`. -/
def parse_date_to_iso_utc (s : String) : Option String :=
  if s = "" then none
  else
    let l := stripChars s.data
    match fastIso l with
    | some r => some r
    | none => (tryPatterns datePatterns l).map finishIso

/-! ## Python `float()` and `coerce_int` -/

/-- Result of Python's `float(str)`: a finite value (carried exactly, as
the unreduced fraction `num / den` the literal denotes, `den` a positive
power of ten), an infinity, or a NaN. Literals so large that binary64
rounding overflows (at or beyond the midpoint `2^1024 - 2^970`) give an
infinity, as C `strtod` does. For finite literals the exact value is
kept; `int(float(v))` truncates the rounded binary64, which agrees with
truncating the exact value on every literal this development evaluates
(small integers and tenths, far from any rounding boundary). -/
inductive PyFloatVal
  | finite (num : Int) (den : Nat)
  | inf
  | neginf
  | nan
deriving DecidableEq, Repr

/-- Parse a digit run with single underscores between digits, also
returning how many digits (underscores excluded) it has. -/
def parseDigitsCount : List Char → Option (Nat × Nat)
  | [] => none
  | c :: rest =>
    if c.isDigit then goCount (digitVal c) 1 rest else none
where
  goCount : Nat → Nat → List Char → Option (Nat × Nat)
    | acc, k, [] => some (acc, k)
    | acc, k, c :: rest =>
      if c.isDigit then goCount (acc * 10 + digitVal c) (k + 1) rest
      else if c = '_' then
        match rest with
        | [] => none
        | d :: rest2 =>
          if d.isDigit then goCount (acc * 10 + digitVal d) (k + 1) rest2 else none
      else none

/-- Lowercase a character list (ASCII; the inputs compared against the
`inf`/`infinity`/`nan` keywords are ASCII). -/
def lowerChars (l : List Char) : List Char := l.map Char.toLower

/-- Split at the first occurrence of a character. -/
def splitFirst (c : Char) (l : List Char) : List Char × Option (List Char) :=
  match l.indexOf? c with
  | none => (l, none)
  | some i => (l.take i, some (l.drop (i + 1)))

/-- The threshold at which `strtod`'s round-to-nearest overflows binary64:
the midpoint between the largest finite double and `2^1024`, which is the
integer `2^1024 - 2^970 = 2^970 * (2^54 - 1)`. -/
def doubleOverflowBound : Nat := 2 ^ 970 * (2 ^ 54 - 1)

/-- Python `float(s)`: strip whitespace, optional sign, then either one of
the keywords `inf`/`infinity`/`nan` (case-insensitive) or a decimal
literal `digits[.digits][e[sign]digits]` (each digit run may use
underscore separators; the integer and fraction parts may not both be
empty). `none` where Python raises `ValueError`. -/
def pyFloat (s : String) : Option PyFloatVal :=
  let l := stripChars s.data
  let (neg, r0) :=
    match l with
    | '+' :: r => (false, r)
    | '-' :: r => (true, r)
    | r => (false, r)
  let r := lowerChars r0
  if r = "inf".data || r = "infinity".data then
    some (if neg then PyFloatVal.neginf else PyFloatVal.inf)
  else if r = "nan".data then
    some PyFloatVal.nan
  else
    let (mant, expo) := splitFirst 'e' r
    let (ip, fp) := splitFirst '.' mant
    do
      let (iv, ic) ← if ip.isEmpty then pure ((0 : Nat), (0 : Nat)) else parseDigitsCount ip
      let (fv, fc) ←
        match fp with
        | none => pure ((0 : Nat), (0 : Nat))
        | some [] => pure ((0 : Nat), (0 : Nat))
        | some f => parseDigitsCount f
      if ic = 0 ∧ fc = 0 then none else
      let ex ←
        match expo with
        | none => pure (0 : Int)
        | some ('+' :: e2) => (parseDigitsCount e2).map fun p => (p.1 : Int)
        | some ('-' :: e2) => (parseDigitsCount e2).map fun p => -(p.1 : Int)
        | some e2 => (parseDigitsCount e2).map fun p => (p.1 : Int)
      let num0 : Nat := iv * 10 ^ fc + fv
      let num1 : Nat := if 0 ≤ ex then num0 * 10 ^ ex.toNat else num0
      let den : Nat := if 0 ≤ ex then 10 ^ fc else 10 ^ fc * 10 ^ (-ex).toNat
      if doubleOverflowBound * den ≤ num1 then
        pure (if neg then PyFloatVal.neginf else PyFloatVal.inf)
      else pure (PyFloatVal.finite (if neg then -(num1 : Int) else (num1 : Int)) den)

/-- Python `int(float(v))` truncates toward zero. -/
def truncFrac (num : Int) (den : Nat) : Int := Int.tdiv num den

/-- Exceptions and constraint failures that can escape the pipeline:
`OverflowError` from `int(float(...))`, and SQLite `IntegrityError` for a
`NOT NULL` violation. -/
inductive Err
  | overflowError
  | notNullViolation (table col : String)
  | fkViolation (table col : String)
deriving DecidableEq, Repr

/-- The `coerce_int` function of `app/dq_rules.py`. Its `try` block catches
only `ValueError`: a failed `float()` parse and `int(nan)` both return
`None`, but `int(float(v))` on an infinite value raises `OverflowError`,
which propagates to the caller. -/
def coerce_int (v : Option String) : Except Err (Option Int) :=
  match v with
  | none => Except.ok none
  | some v0 =>
    let v1 := pyStrip v0
    if v1 = "" then Except.ok none
    else
      match pyFloat v1 with
      | none => Except.ok none
      | some PyFloatVal.nan => Except.ok none
      | some PyFloatVal.inf => Except.error Err.overflowError
      | some PyFloatVal.neginf => Except.error Err.overflowError
      | some (PyFloatVal.finite num den) => Except.ok (some (truncFrac num den))

/-- The `trim` helper of `app/dq_rules.py`: strip when the value is a
string, pass `None` through. -/
def trim (s : Option String) : Option String := s.map pyStrip

/-- Python truthiness of an optional string: `None` and `""` are falsy. -/
def falsyS : Option String → Bool
  | none => true
  | some s => s = ""

/-- The single-quote character, for `repr` output. -/
def sq : Char := Char.ofNat 39

/-- Python `repr` of a string as it appears in the f-string error messages:
single-quoted, double-quoted when the value contains a single quote but no
double quote. (No character of the strings this development evaluates
needs a backslash escape.) -/
def pyReprStr (s : String) : String :=
  if s.data.contains sq && !s.data.contains '"' then ⟨'"' :: s.data ++ ['"']⟩
  else ⟨sq :: s.data ++ [sq]⟩

/-- Python `repr` of an optional string (`None` prints as `None`). -/
def pyReprOpt : Option String → String
  | none => "None"
  | some s => pyReprStr s

/-! ## The two `re` patterns of `app/dq_rules.py` -/

/-- Decision procedure for `EMAIL_RE = ^[^@\s]+@[^@\s]+\.[^@\s]+$`.
A string is in that language exactly when: no character is whitespace,
there is exactly one `@` (each class excludes `@`), the part before the
`@` is nonempty, and the part after the `@` has some `.` that is neither
its first nor its last character (the split at that `.` gives the nonempty
second and third groups; `.` itself is allowed inside every class). -/
def emailMatch (s : String) : Bool :=
  let l := s.data
  l.all (fun c => !isPySpace c) && l.count '@' = 1 &&
    (let a := l.takeWhile (· ≠ '@')
     let dom := (l.dropWhile (· ≠ '@')).drop 1
     !a.isEmpty && ((dom.drop 1).dropLast.contains '.'))

/-- One octet of the IPv4 alternative of `IP_RE`:
`25[0-5] | 2[0-4]\d | [01]?\d?\d`, matched against the whole
dot-separated part. -/
def ipv4Octet (p : List Char) : Bool :=
  match p with
  | ['2', '5', c] => '0' ≤ c && c ≤ '5'
  | ['2', c, d] => '0' ≤ c && c ≤ '4' && d.isDigit
  | [a, b, c] => (a = '0' || a = '1') && b.isDigit && c.isDigit
  | [a, b] => a.isDigit && b.isDigit
  | [a] => a.isDigit
  | _ => false

/-- Hexadecimal digit test (`[0-9a-fA-F]`). -/
def isHexChar (c : Char) : Bool :=
  c.isDigit || ('a' ≤ c && c ≤ 'f') || ('A' ≤ c && c ≤ 'F')

/-- Decision procedure for `IP_RE`: either the IPv4 branch — four
dot-separated parts, each a valid octet (the `(\.(?!$)|$)` lookahead
exactly makes the dots separators with no trailing dot) — or the
permissive IPv6 branch `([0-9a-fA-F]{0,4}:){2,7}[0-9a-fA-F]{0,4}` —
three to eight colon-separated runs of at most four hex digits, runs may
be empty. -/
def ipRegexMatch (s : String) : Bool :=
  let l := s.data
  (let parts := l.splitOn '.'
   parts.length = 4 && parts.all ipv4Octet) ||
  (let parts := l.splitOn ':'
   3 ≤ parts.length && parts.length ≤ 8 &&
     parts.all (fun p => p.length ≤ 4 && p.all isHexChar))

/-! ## `validate_row` and `validate_batch` -/

/-- A raw spreadsheet row: the header-keyed string dictionary produced by
`read_xlsx_rows`. Keys are unique (it is a Python dict). -/
abbrev Raw : Type := List (String × String)

/-- Dictionary lookup, `raw.get(k)`. -/
def rget (raw : Raw) (k : String) : Option String :=
  (List.lookup k raw)

/-- Dictionary lookup with default, `raw.get(k, d)`. -/
def rgetD (raw : Raw) (k d : String) : String :=
  (rget raw k).getD d

/-- `RAW_REQUIRED_COLS` of `app/dq_rules.py`. -/
def RAW_REQUIRED_COLS : List String :=
  ["Review Id", "Reviewer Id", "Business Id", "Review Rating", "Review Date"]

/-- The normalized row `validate_row` returns (snake_case keys of the
stage/table contract). `source_file`/`source_row` are attached later by
`process_file`. -/
structure Norm where
  user_id : Option String
  email_address : Option String
  user_name : Option String
  reviewer_country : Option String
  business_id : Option String
  business_name : Option String
  review_id : Option String
  review_date : Option String
  review_rating : Option Int
  review_title : Option String
  review_content : Option String
  review_ip_address : Option String
  source_file : Option String := none
  source_row : Option Nat := none
deriving DecidableEq, Repr

/-- The `validate_row` function of `app/dq_rules.py`. All checks
accumulate into one error list; the normalized mapping is produced even
when invalid. The only way it can raise is `coerce_int`'s uncaught
`OverflowError`. -/
def validate_row (raw : Raw) : Except Err (Bool × List String × Norm) := do
  let missing := RAW_REQUIRED_COLS.filterMap fun col =>
    if rget raw col = none then some ("missing required column: " ++ col) else none
  let review_id := trim (rget raw "Review Id")
  let reviewer_id := trim (rget raw "Reviewer Id")
  let business_id := trim (rget raw "Business Id")
  let review_rating ← coerce_int (some (rgetD raw "Review Rating" ""))
  let review_date_iso := parse_date_to_iso_utc (pyStrip (rgetD raw "Review Date" ""))
  let email := trim (rget raw "Email Address")
  let ip := trim (rget raw "Review IP Address")
  let errors := missing
    ++ (if falsyS review_id then ["Review Id is null/empty"] else [])
    ++ (if falsyS reviewer_id then ["Reviewer Id is null/empty"] else [])
    ++ (if falsyS business_id then ["Business Id is null/empty"] else [])
    ++ (if review_rating = none ∨ ¬ (review_rating = some 1 ∨ review_rating = some 2 ∨
          review_rating = some 3 ∨ review_rating = some 4 ∨ review_rating = some 5) then
          ["Review Rating invalid: " ++ pyReprOpt (rget raw "Review Rating")] else [])
    ++ (if falsyS review_date_iso then
          ["Review Date unparsable: " ++ pyReprOpt (rget raw "Review Date")] else [])
    ++ (match email with
        | some e => if e ≠ "" && !emailMatch e then ["Email Address invalid: " ++ pyReprStr e] else []
        | none => [])
    ++ (match ip with
        | some i => if i ≠ "" && !ipRegexMatch i then ["Review IP Address invalid: " ++ pyReprStr i] else []
        | none => [])
  let normalized : Norm :=
    { user_id := reviewer_id
      email_address := if falsyS email then none else email
      user_name := trim (rget raw "Reviewer Name")
      reviewer_country := trim (rget raw "Reviewer Country")
      business_id := business_id
      business_name := trim (rget raw "Business Name")
      review_id := review_id
      review_date := review_date_iso
      review_rating := review_rating
      review_title := trim (rget raw "Review Title")
      review_content := trim (rget raw "Review Content")
      review_ip_address := ip }
  return (errors.isEmpty, errors, normalized)

/-- The scan loop of `validate_batch`: zero-based index, the set of
trimmed identifiers seen so far, flagging every repeat of a nonempty
identifier. -/
def vbGo : List Raw → Nat → List String → List Nat × List (Nat × List String)
  | [], _, _ => ([], [])
  | row :: rest, idx, seen =>
    match trim (rget row "Review Id") with
    | some r =>
      if r ≠ "" then
        if seen.contains r then
          let (d, e) := vbGo rest (idx + 1) seen
          (idx :: d, (idx, ["Duplicate Review Id within file"]) :: e)
        else vbGo rest (idx + 1) (r :: seen)
      else vbGo rest (idx + 1) seen
    | none => vbGo rest (idx + 1) seen

/-- The `validate_batch` function of `app/dq_rules.py`: duplicate row
indices in scan order plus a per-row error map. -/
def validate_batch (rows : List Raw) : List Nat × List (Nat × List String) :=
  vbGo rows 0 []

/-! ## `ipaddress.ip_address` (used by `redact_ip`) -/

/-- One dotted-quad part as `IPv4Address._parse_octet` accepts it:
nonempty, at most three characters, decimal digits only, no leading zero
(CPython ≥ 3.9.5), value at most 255. -/
def ipv4StrictPart (p : List Char) : Bool :=
  !p.isEmpty && p.length ≤ 3 && p.all Char.isDigit &&
    !(1 < p.length && p.head? = some '0') &&
    p.foldl (fun a c => a * 10 + digitVal c) 0 ≤ 255

/-- `ipaddress.IPv4Address` acceptance: exactly four dot-separated valid
octets. -/
def isIpv4Addr (s : String) : Bool :=
  let parts := s.data.splitOn '.'
  parts.length = 4 && parts.all ipv4StrictPart

/-- One hextet as `IPv6Address._parse_hextet` accepts it: one to four
hexadecimal digits. -/
def ipv6Hextet (p : List Char) : Bool :=
  !p.isEmpty && p.length ≤ 4 && p.all isHexChar

/-- Index (in the full part list) of the first empty part strictly between
the first and last parts — the `::` position `_ip_int_from_string`
searches for. -/
def firstEmptyInterior (parts : List (List Char)) : Option Nat :=
  (((parts.drop 1).dropLast).indexOf? ([] : List Char)).map (· + 1)

/-- `IPv6Address._ip_int_from_string` acceptance on the part before any
scope id: split on `:`; at least three and at most nine parts; an embedded
dotted quad may stand as the last part (worth two hextets); at most one
empty interior part (the `::`); when a `::` is present the boundary empty
parts may only hug it and at least one hextet must be skipped; without
`::` exactly eight valid hextets. -/
def ipv6Core (l : List Char) : Bool :=
  let parts0 := l.splitOn ':'
  if parts0.length < 3 then false else
  let lastp := (parts0.getLast?).getD []
  let parts2opt : Option (List (List Char)) :=
    if lastp.contains '.' then
      if isIpv4Addr ⟨lastp⟩ then some (parts0.dropLast ++ [['0'], ['0']]) else none
    else some parts0
  match parts2opt with
  | none => false
  | some parts =>
    if 9 < parts.length then false else
    let interiorEmpties := (((parts.drop 1).dropLast).filter List.isEmpty).length
    if 1 < interiorEmpties then false
    else
      match firstEmptyInterior parts with
      | some skip =>
        let len := parts.length
        let hi0 := skip
        let lo0 := len - skip - 1
        let headEmpty := parts.head? = some []
        let lastEmpty := parts.getLast? = some []
        let hiCnt := if headEmpty then hi0 - 1 else hi0
        let loCnt := if lastEmpty then lo0 - 1 else lo0
        (!headEmpty || hi0 - 1 = 0) && (!lastEmpty || lo0 - 1 = 0) &&
          hiCnt + loCnt ≤ 7 &&
          (parts.take hiCnt).all ipv6Hextet &&
          (parts.drop (len - loCnt)).all ipv6Hextet
      | none => parts.length = 8 && parts.all ipv6Hextet

/-- `ipaddress.IPv6Address` acceptance, with an optional nonempty
`%scope` suffix (CPython ≥ 3.9). -/
def isIpv6Addr (s : String) : Bool :=
  let (addr, zone) := splitFirst '%' s.data
  (match zone with
   | some z => !z.isEmpty && !z.contains '%'
   | none => true) && ipv6Core addr

/-- `ipaddress.ip_address(v)`: try IPv4, then IPv6; `none` where Python
raises `ValueError`. -/
def ipAddrVersion (s : String) : Option Nat :=
  if isIpv4Addr s then some 4
  else if isIpv6Addr s then some 6
  else none

/-! ## The redactors of `app/ingest.py` -/

/-- The `email_hash_value` function: falsy input yields `None`, otherwise
the hex digest of the stripped, lowercased email. The SHA-256 digest
itself is abstract — it enters every statement only as an applied
function. -/
def email_hash_value (hash : String → String) (email : Option String) : Option String :=
  match email with
  | none => none
  | some e => if e = "" then none else some (hash ⟨lowerChars (stripChars e.data)⟩)

/-- The `redact_name` function: falsy input yields `None`; otherwise the
first character of the stripped name followed by `"***"`, or `None` when
stripping leaves nothing. -/
def redact_name (name : Option String) : Option String :=
  match name with
  | none => none
  | some s =>
    if s = "" then none
    else
      let n := pyStrip s
      if n ≠ "" then some (⟨n.data.take 1⟩ ++ "***") else none

/-- The `redact_ip` function: falsy input yields `None`; an IPv4 address
keeps its first three dotted parts with the last replaced by `"0"`; an
IPv6 address has its last colon-separated part replaced by `"0000"`; any
value `ip_address` rejects becomes the `"REDACTED"` marker. -/
def redact_ip (value : Option String) : Option String :=
  match value with
  | none => none
  | some s =>
    if s = "" then none
    else
      let v := pyStrip s
      match ipAddrVersion v with
      | some 4 =>
        let parts := v.data.splitOn '.'
        some ⟨List.intercalate ['.'] (parts.take 3 ++ [['0']])⟩
      | some _ =>
        let parts := v.data.splitOn ':'
        some ⟨List.intercalate [':'] (parts.dropLast ++ [['0', '0', '0', '0']])⟩
      | none => some "REDACTED"

/-! ## The SQLite store of `app/models.py`

Tables are row lists in insertion order. A `TEXT PRIMARY KEY` column is
nullable in SQLite (only `INTEGER PRIMARYKEY` implies `NOT NULL`), and
`NULL` keys never conflict, so key columns are `Option String` and
`ON CONFLICT` fires only on `some`-to-`some` equality. Columns declared
`NOT NULL` are plain types and their violation raises `IntegrityError`.
`load_audit`'s autoincrement id and wall-clock `loaded_at` default are
omitted: no claim mentions them. -/

structure BizRow where
  business_id : Option String
  business_name : String
  first_review_date : Option String
  last_review_date : Option String
  total_reviews : Int
deriving DecidableEq, Repr

structure UserRow where
  user_id : Option String
  email_address : Option String
  email_hash : Option String
  user_name : Option String
  user_name_redacted : Option String
  reviewer_country : Option String
  first_review_date : Option String
  total_reviews : Int
deriving DecidableEq, Repr

structure ReviewRow where
  review_id : Option String
  user_id : String
  business_id : String
  review_date : String
  review_rating : Int
  review_title : Option String
  review_content : Option String
  review_ip_address : Option String
  review_ip_redacted : Option String
  source_file : Option String
  source_row : Option Nat
deriving DecidableEq, Repr

structure AuditRow where
  file : String
  sha256 : String
  rows_in : Nat
  rows_loaded : Nat
  rows_rejected : Nat
  dq_pass : Nat
  dq_fail : Nat
deriving DecidableEq, Repr

structure Store where
  business : List BizRow
  user : List UserRow
  review : List ReviewRow
  load_audit : List AuditRow
deriving DecidableEq, Repr

def Store.empty : Store := ⟨[], [], [], []⟩

/-- Update the first row satisfying the predicate (the conflicting row a
SQL `DO UPDATE` rewrites; key columns hold at most one match). -/
def updateFirst (p : α → Bool) (f : α → α) : List α → List α
  | [] => []
  | x :: xs => if p x then f x :: xs else x :: updateFirst p f xs

/-- Lexicographic strict order on character lists — SQLite's `memcmp`
order on `TEXT` values (bytewise UTF-8 comparison coincides with
codepoint-lexicographic comparison). -/
def chLt : List Char → List Char → Bool
  | [], [] => false
  | [], _ :: _ => true
  | _ :: _, [] => false
  | a :: as, b :: bs => if a < b then true else if b < a then false else chLt as bs

/-- SQLite `TEXT` comparison on strings. -/
def strLt (a b : String) : Bool := chLt a.data b.data

/-- SQL `<` on two nullable `TEXT` values: `NULL` makes the comparison
non-true. -/
def sqlLt : Option String → Option String → Bool
  | some a, some b => strLt a b
  | _, _ => false

/-- SQL `>` on two nullable `TEXT` values. -/
def sqlGt : Option String → Option String → Bool
  | some a, some b => strLt b a
  | _, _ => false

/-- Non-strict `TEXT` comparison on non-null values (for stating the
minimum/maximum properties of claim C2): `a ≤ b` iff both are non-null
and `b < a` fails. -/
def sqlLe : Option String → Option String → Bool
  | some a, some b => !strLt b a
  | _, _ => false

/-- One `CASE WHEN ... IS NULL OR excluded < stored` step of the
`first_review_date` merge: keep the smaller value. -/
def minD (a b : Option String) : Option String :=
  if a = none || sqlLt b a then b else a

/-- One `CASE WHEN ... IS NULL OR excluded > stored` step of the
`last_review_date` merge: keep the larger value. -/
def maxD (a b : Option String) : Option String :=
  if a = none || sqlGt b a then b else a

/-- SQL `COALESCE` of two nullable values. -/
def coalesce (a b : Option String) : Option String :=
  match a with
  | some v => some v
  | none => b

/-! ## The upserts of `app/ingest.py` -/

/-- The `DO UPDATE SET` clause of `upsert_business`, applied to the
conflicting row. -/
def bizUpd (n : Norm) (r : BizRow) : BizRow :=
  { r with
    business_name := (coalesce n.business_name (some r.business_name)).getD r.business_name
    first_review_date :=
      if r.first_review_date = none || sqlLt n.review_date r.first_review_date then
        n.review_date
      else r.first_review_date
    last_review_date :=
      if r.last_review_date = none || sqlGt n.review_date r.last_review_date then
        n.review_date
      else r.last_review_date
    total_reviews := r.total_reviews + 1 }

/-- The `upsert_business` statement: insert
`(business_id, business_name, review_date, review_date, 1)`; on conflict
keep the existing name unless the incoming one is non-null, extend
`first_review_date` downward and `last_review_date` upward by comparison,
and increment `total_reviews` unconditionally. Inserting a `NULL`
`business_name` violates the table's `NOT NULL`. -/
def upsert_business (n : Norm) (s : Store) : Except Err Store :=
  if n.business_id.isSome && s.business.any (fun r => r.business_id = n.business_id) then
    let b2 := updateFirst (fun r => r.business_id = n.business_id) (bizUpd n) s.business
    Except.ok { s with business := b2 }
  else
    match n.business_name with
    | none => Except.error (Err.notNullViolation "business" "business_name")
    | some nm =>
      Except.ok { s with business := s.business ++ [⟨n.business_id, nm, n.review_date, n.review_date, 1⟩] }

/-- The `DO UPDATE SET` clause of `upsert_user`, applied to the
conflicting row. -/
def userUpd (hash : String → String) (n : Norm) (r : UserRow) : UserRow :=
  { r with
    email_address := coalesce n.email_address r.email_address
    email_hash := coalesce (email_hash_value hash n.email_address) r.email_hash
    user_name := coalesce n.user_name r.user_name
    user_name_redacted := coalesce (redact_name n.user_name) r.user_name_redacted
    reviewer_country := coalesce n.reviewer_country r.reviewer_country
    first_review_date :=
      if r.first_review_date = none || sqlLt n.review_date r.first_review_date then
        n.review_date
      else r.first_review_date
    total_reviews := r.total_reviews + 1 }

/-- The `upsert_user` statement: insert the row with the derived
`email_hash` and `user_name_redacted` computed from the incoming values;
on conflict, `COALESCE` each incoming value over the stored one
column-by-column, extend `first_review_date` downward, and increment
`total_reviews` unconditionally. -/
def upsert_user (hash : String → String) (n : Norm) (s : Store) : Except Err Store :=
  if n.user_id.isSome && s.user.any (fun r => r.user_id = n.user_id) then
    let u2 := updateFirst (fun r => r.user_id = n.user_id) (userUpd hash n) s.user
    Except.ok { s with user := u2 }
  else
    let row : UserRow :=
      ⟨n.user_id, n.email_address, email_hash_value hash n.email_address,
       n.user_name, redact_name n.user_name, n.reviewer_country, n.review_date, 1⟩
    Except.ok { s with user := s.user ++ [row] }

/-- The `DO UPDATE SET` clause of `upsert_review`, applied to the
conflicting row (`d` and `rat` are the non-null incoming date and
rating). -/
def revUpd (n : Norm) (d : String) (rat : Int) (r : ReviewRow) : ReviewRow :=
  { r with
    review_date := d
    review_rating := rat
    review_title := n.review_title
    review_content := n.review_content
    review_ip_address := n.review_ip_address
    review_ip_redacted := redact_ip n.review_ip_address
    source_file := n.source_file
    source_row := n.source_row }

/-- The `upsert_review` statement: insert on first sight — enforcing the
`NOT NULL` columns and (with `PRAGMA foreign_keys=ON`) the parent
business/user rows — and on conflict overwrite date, rating, title,
content, both IP columns and the lineage fields with the incoming values. -/
def upsert_review (n : Norm) (s : Store) : Except Err Store :=
  if n.review_id.isSome && s.review.any (fun r => r.review_id = n.review_id) then
    match n.review_date, n.review_rating with
    | none, _ => Except.error (Err.notNullViolation "review" "review_date")
    | _, none => Except.error (Err.notNullViolation "review" "review_rating")
    | some d, some rat =>
      let r2 := updateFirst (fun r => r.review_id = n.review_id) (revUpd n d rat) s.review
      Except.ok { s with review := r2 }
  else
    match n.user_id, n.business_id, n.review_date, n.review_rating with
    | none, _, _, _ => Except.error (Err.notNullViolation "review" "user_id")
    | _, none, _, _ => Except.error (Err.notNullViolation "review" "business_id")
    | _, _, none, _ => Except.error (Err.notNullViolation "review" "review_date")
    | _, _, _, none => Except.error (Err.notNullViolation "review" "review_rating")
    | some uid, some bid, some d, some rat =>
      if !(s.business.any fun r => r.business_id = some bid) then
        Except.error (Err.fkViolation "review" "business_id")
      else if !(s.user.any fun r => r.user_id = some uid) then
        Except.error (Err.fkViolation "review" "user_id")
      else
        let row : ReviewRow :=
          ⟨n.review_id, uid, bid, d, rat, n.review_title, n.review_content,
           n.review_ip_address, redact_ip n.review_ip_address, n.source_file, n.source_row⟩
        Except.ok { s with review := s.review ++ [row] }

/-! ## The `v_reviews_private` projection of `app/models.py` -/

/-- One row of `v_reviews_private`: the review's own public columns plus,
aliased over the PII column names, the user's `email_hash`, the user's
`user_name_redacted` and the review's `review_ip_redacted`. -/
structure PrivRow where
  review_id : Option String
  business_id : String
  user_id : String
  review_date : String
  review_rating : Int
  review_title : Option String
  review_content : Option String
  email_address : Option String
  user_name : Option String
  review_ip_address : Option String
deriving DecidableEq, Repr

/-- The view query: `review JOIN "user" ON u.user_id = r.user_id`
(SQL inner-join equality, never satisfied by `NULL`). -/
def v_reviews_private (s : Store) : List PrivRow :=
  s.review.flatMap fun r =>
    (s.user.filter fun u => u.user_id = some r.user_id).map fun u =>
      ⟨r.review_id, r.business_id, r.user_id, r.review_date, r.review_rating,
       r.review_title, r.review_content, u.email_hash, u.user_name_redacted,
       r.review_ip_redacted⟩

/-! ## The per-file orchestrator `process_file` -/

/-- A source file as `process_file` sees it: its path, the SHA-256
fingerprint of its bytes (kept abstract — byte-identical files are
exactly those sharing it), and the header/rows `read_xlsx_rows`
extracts. -/
structure FileSrc where
  path : String
  sha256 : String
  header : List String
  rows : List Raw
deriving DecidableEq, Repr

/-- The skip-check query
`SELECT 1 FROM load_audit WHERE file=? AND sha256=? LIMIT 1`. -/
def auditContains (s : Store) (path hash : String) : Bool :=
  s.load_audit.any fun a => a.file = path && a.sha256 = hash

/-- `os.path.basename`. -/
def pathBase (p : String) : String :=
  ⟨((p.data.splitOn '/').getLast?).getD []⟩

/-- `os.path.splitext(b)[0]`: drop from the last dot, unless every
character before it is itself a dot. -/
def stripExt (s : String) : String :=
  let l := s.data
  match l.reverse.indexOf? '.' with
  | none => s
  | some ri =>
    let i := l.length - 1 - ri
    if (l.take i).all (· = '.') then s else ⟨l.take i⟩

/-- The quarantine artifact `write_quarantine` produces (as data: the CSV
writing and the timestamped filename are I/O): the augmented header and
one record per bad row — the raw value of every header column followed by
the `"; "`-joined error messages. -/
structure Quar where
  name : String
  out_header : List String
  records : List (List String)
deriving DecidableEq, Repr

/-- Python `"; ".join(errs)`. -/
def joinSemi (errs : List String) : String :=
  ⟨List.intercalate [';', ' '] (errs.map String.data)⟩

def write_quarantine (basename : String) (header : List String)
    (bad_rows : List (Nat × Raw × List String)) : Quar :=
  ⟨basename, header ++ ["__reason__"],
   bad_rows.map fun b => header.map (fun col => rgetD b.2.1 col "") ++ [joinSemi b.2.2]⟩

/-- The row loop of `process_file`: 1-indexed after the header (the first
data row is spreadsheet row 2), each row validated, the batch duplicate
flag merged in, clean rows lineage-tagged and collected, dirty rows
buffered for quarantine with their counters. Returns
`(rows_in, rows_rejected, dq_pass, dq_fail, bad_rows, good_norm)`. -/
def processRows (dups : List Nat) (basename : String) :
    List Raw → Nat → Except Err (Nat × Nat × Nat × Nat × List (Nat × Raw × List String) × List Norm)
  | [], _ => Except.ok (0, 0, 0, 0, [], [])
  | raw :: rest, rownum =>
    match validate_row raw with
    | Except.error e => Except.error e
    | Except.ok (is_ok, errs0, norm) =>
      let errs := if (rownum - 2) ∈ dups then errs0 ++ ["Duplicate Review Id within file"] else errs0
      match processRows dups basename rest (rownum + 1) with
      | Except.error e => Except.error e
      | Except.ok (ri, rr, dp, df, bad, good) =>
        if is_ok ∧ errs = [] then
          let n2 := { norm with source_file := some basename, source_row := some rownum }
          Except.ok (ri + 1, rr, dp + 1, df, bad, n2 :: good)
        else
          Except.ok (ri + 1, rr + 1, dp, df + 1, (rownum, raw, errs) :: bad, good)

/-- The statistics tuple `process_file` returns. -/
abbrev Stats := Nat × Nat × Nat × Nat × Nat × List Norm

instance : DecidableEq (Nat × List Norm) := inferInstance

instance : DecidableEq (Nat × Nat × List Norm) := inferInstance

instance : DecidableEq (Nat × Nat × Nat × List Norm) := inferInstance

instance : DecidableEq (Nat × Nat × Nat × Nat × List Norm) := inferInstance

instance : DecidableEq Stats := inferInstance

/-- One good row's immediate upserts, in source order: business, user,
review. -/
def upsertRow (hash : String → String) (s : Store) (n : Norm) : Except Err Store :=
  match upsert_business n s with
  | Except.error e => Except.error e
  | Except.ok s1 =>
    match upsert_user hash n s1 with
    | Except.error e => Except.error e
    | Except.ok s2 => upsert_review n s2

/-- The `process_file` function of `app/ingest.py`: fingerprint lookup and
silent skip; read; batch deduplication; per-row validation with duplicate
flags merged; quarantine of the bad rows; immediate business/user/review
upserts of each good row; one audit insert. An `Except.error` is a raised
Python exception: nothing is returned and (under the caller's transaction)
nothing is committed. -/
def process_file (hash : String → String) (conn : Store) (f : FileSrc) :
    Except Err (Stats × Store × Option Quar) :=
  let basename := pathBase f.path
  let file_hash := f.sha256
  if auditContains conn f.path file_hash then
    Except.ok ((0, 0, 0, 0, 0, []), conn, none)
  else
    let dups := (validate_batch f.rows).1
    match processRows dups basename f.rows 2 with
    | Except.error e => Except.error e
    | Except.ok (rows_in, rows_rejected, dq_pass, dq_fail, bad_rows, good_norm) =>
      let quar : Option Quar :=
        if bad_rows.isEmpty then none
        else some (write_quarantine (stripExt basename) f.header bad_rows)
      match good_norm.foldlM (upsertRow hash) conn with
      | Except.error e => Except.error e
      | Except.ok conn2 =>
        let rows_loaded := good_norm.length
        let audit : AuditRow :=
          ⟨f.path, file_hash, rows_in, rows_loaded, rows_rejected, dq_pass, dq_fail⟩
        let conn3 := { conn2 with load_audit := conn2.load_audit ++ [audit] }
        Except.ok ((rows_in, rows_loaded, rows_rejected, dq_pass, dq_fail, good_norm), conn3, quar)

/-! ## The run loop of `build_stage_and_load` and `db.connect` -/

/-- The `for path in files` body of `build_stage_and_load`, acting on the
connection's uncommitted state. -/
def runFiles (hash : String → String) (conn : Store) : List FileSrc → Except Err Store
  | [] => Except.ok conn
  | f :: fs =>
    match process_file hash conn f with
    | Except.error e => Except.error e
    | Except.ok r => runFiles hash r.2.1 fs

/-- The durable store after a run under `db.connect()`'s semantics: the
context manager commits once, after the whole loop; an exception skips
`conn.commit()` and `conn.close()` rolls the open transaction back, so a
failed run leaves the durable store exactly as it was before the run. -/
def durableAfter (hash : String → String) (s : Store) (files : List FileSrc) : Store :=
  match runFiles hash s files with
  | Except.ok s2 => s2
  | Except.error _ => s

/-! ## The XLSX reader `read_xlsx_rows`

Cell values as `openpyxl` (with `data_only=True`) hands them over: null,
datetime, int, float, bool (a Python `bool` is an `int`, so it reaches the
numeric branch of the conversion, where `str(True)` is its textual form),
or string. A float cell is abstracted as the pair of its `str()` rendering
and its `is_integer()`/`int()` result — the two primitives the conversion
consults — since nothing in the claims depends on binary64 internals
beyond them. -/

structure PFloat where
  text : String
  whole : Option Int
deriving DecidableEq, Repr

inductive Cell
  | cnone
  | cdatetime (dt : DT)
  | cint (n : Int)
  | cfloat (f : PFloat)
  | cbool (b : Bool)
  | cstr (s : String)
deriving DecidableEq, Repr

/-- Render six-digit microseconds. -/
def pad6 (n : Nat) : List Char :=
  [digitChar (n / 100000 % 10), digitChar (n / 10000 % 10), digitChar (n / 1000 % 10),
   digitChar (n / 100 % 10), digitChar (n / 10 % 10), digitChar (n % 10)]

/-- Python `str(datetime)`: `isoformat(sep=' ')` — microseconds only when
nonzero, a `+HH:MM[:SS[.ffffff]]` offset only when aware. -/
def pyStrDatetime (dt : DT) : String :=
  let base := pad4 dt.year ++ '-' :: (pad2 dt.month ++ '-' :: (pad2 dt.day ++ ' ' ::
    (pad2 dt.hour ++ ':' :: (pad2 dt.minute ++ ':' :: pad2 dt.second))))
  let base := base ++ (if dt.micro ≠ 0 then '.' :: pad6 dt.micro else [])
  let off := match dt.tz with
    | none => ([] : List Char)
    | some o =>
      let a := o.natAbs
      let hh := a / 3600000000
      let mm := a % 3600000000 / 60000000
      let ss := a % 60000000 / 1000000
      let us := a % 1000000
      (if o < 0 then '-' else '+') ::
        (pad2 hh ++ ':' :: pad2 mm ++
          (if ss ≠ 0 ∨ us ≠ 0 then ':' :: pad2 ss else []) ++
          (if us ≠ 0 then '.' :: pad6 us else []))
  ⟨base ++ off⟩

/-- Python `str()` of a cell value (used for header cells). -/
def pyStrOfCell : Cell → String
  | Cell.cnone => "None"
  | Cell.cdatetime dt => pyStrDatetime dt
  | Cell.cint n => toString n
  | Cell.cfloat f => f.text
  | Cell.cbool b => if b then "True" else "False"
  | Cell.cstr s => s

/-- The per-cell string conversion of `read_xlsx_rows`: null becomes the
empty string; a datetime is rendered `strftime("%Y-%m-%dT%H:%M:%SZ")`
when it carries timezone info and without the `Z` otherwise (no
conversion takes place); a whole-valued float becomes `str(int(f))`; any
other number, a bool, or a string becomes its `str()` form. -/
def convertCell : Cell → String
  | Cell.cnone => ""
  | Cell.cdatetime dt =>
    ⟨fmtStamp dt.year dt.month dt.day dt.hour dt.minute dt.second⟩ ++
      (if dt.tz.isSome then "Z" else "")
  | Cell.cint n => toString n
  | Cell.cfloat f =>
    match f.whole with
    | some n => toString n
    | none => f.text
  | Cell.cbool b => if b then "True" else "False"
  | Cell.cstr s => s

/-- Python dict assignment `d[k] = v` on the assoc-list model: replace in
place if present, append otherwise. -/
def dictSet : Raw → String → String → Raw
  | [], k, v => [(k, v)]
  | (k0, v0) :: rest, k, v =>
    if k0 = k then (k0, v) :: rest else (k0, v0) :: dictSet rest k v

/-- The row-dictionary loop of `read_xlsx_rows`: enumerate the cells,
breaking once the index reaches the header's length — i.e. walk
`header.zip cells` — and assign each converted value under its header
name. Missing trailing cells are simply never assigned. -/
def rowToDict (header : List String) (cells : List Cell) : Raw :=
  (header.zip cells).foldl (fun d p => dictSet d p.1 (convertCell p.2)) []

/-- The `read_xlsx_rows` function of `app/ingest.py` on a sheet given as
rows of cells: the first row (if any, and if nonempty) becomes the header
via `str(cell).strip()` with nulls as `""`; every later row becomes a
header-keyed string dictionary. -/
def read_xlsx_rows (sheet : List (List Cell)) : List String × List Raw :=
  match sheet with
  | [] => ([], [])
  | hrow :: rest =>
    if hrow.isEmpty then ([], [])
    else
      let header := hrow.map fun c =>
        match c with
        | Cell.cnone => ""
        | c => pyStrip (pyStrOfCell c)
      (header, rest.map (rowToDict header))

/-- The trimmed review identifier of row `j` (for stating claim C7). -/
def ridAt (rows : List Raw) (j : Nat) : Option String :=
  (rows[j]?).bind fun row => trim (rget row "Review Id")

/-- Decidable equality for `Except`, so the closed theorems below reduce
by `decide`. -/
instance exceptDecEq {ε α : Type} [DecidableEq ε] [DecidableEq α] :
    DecidableEq (Except ε α) := fun a b =>
  match a, b with
  | Except.ok x, Except.ok y =>
    if h : x = y then Decidable.isTrue (by rw [h])
    else Decidable.isFalse (by intro hc; cases hc; exact h rfl)
  | Except.error x, Except.error y =>
    if h : x = y then Decidable.isTrue (by rw [h])
    else Decidable.isFalse (by intro hc; cases hc; exact h rfl)
  | Except.ok _, Except.error _ => Decidable.isFalse (by intro hc; cases hc)
  | Except.error _, Except.ok _ => Decidable.isFalse (by intro hc; cases hc)

/-- Row `j` is a repeat relative to a carried-over `seen` set. -/
def DupAt (rows : List Raw) (seen : List String) (j : Nat) : Prop :=
  ∃ r, ridAt rows j = some r ∧ r ≠ "" ∧
    (r ∈ seen ∨ ∃ j2, j2 < j ∧ ridAt rows j2 = some r)

/-! ## Concrete fixtures

Closed theorems evaluate the pipeline at concrete inputs; the abstract
digest parameter is instantiated with a tagging stand-in (every theorem
about hashing behaviour is parametric in the digest). -/

def sampleHash : String → String := fun s => "sha256:" ++ s

/-- The source header of the repository's ingestion test. -/
def hdr0 : List String :=
  ["Review Id", "Reviewer Id", "Business Id", "Review Rating", "Review Date",
   "Review Title", "Review Content", "Email Address", "Review IP Address",
   "Reviewer Name", "Reviewer Country", "Business Name"]

/-- A fully valid raw row (row 1 of the test scenario). -/
def rowA : Raw :=
  [("Review Id", "r-1"), ("Reviewer Id", "u-1"), ("Business Id", "b-1"),
   ("Review Rating", "5"), ("Review Date", "2024-01-01T12:00:00Z"),
   ("Review Title", "Great"), ("Review Content", "Loved it"),
   ("Email Address", "user@example.com"), ("Review IP Address", "1.2.3.4"),
   ("Reviewer Name", "Alice"), ("Reviewer Country", "GB"),
   ("Business Name", "Widgets Inc")]

/-- Row 2 of the test scenario: duplicate review id, invalid email,
invalid IP. -/
def rowB : Raw :=
  [("Review Id", "r-1"), ("Reviewer Id", "u-2"), ("Business Id", "b-1"),
   ("Review Rating", "4"), ("Review Date", "2024-01-02"),
   ("Email Address", "bad-email"), ("Review IP Address", "not-an-ip")]

/-- The two-row file of claim C8. -/
def fileC8 : FileSrc := ⟨"data/raw/sample.xlsx", "F8", hdr0, [rowA, rowB]⟩

/-- The joined error column expected for row 2 of `fileC8`. -/
def c8Reason : String :=
  "Email Address invalid: " ++ pyReprStr "bad-email" ++
    "; Review IP Address invalid: " ++ pyReprStr "not-an-ip" ++
    "; Duplicate Review Id within file"

/-- A row that passes validation but carries no `Business Name` column
(claim C10). -/
def rowC10 : Raw :=
  [("Review Id", "r-2"), ("Reviewer Id", "u-9"), ("Business Id", "b-9"),
   ("Review Rating", "5"), ("Review Date", "2024-03-01")]

def fileC10 : FileSrc := ⟨"data/raw/nobiz.xlsx", "F10", RAW_REQUIRED_COLS, [rowC10]⟩

/-- A valid row whose rating is out of range (for contrasting the graceful
rejection path with the raising one in claim C5). -/
def rowC5b : Raw :=
  [("Review Id", "r-3"), ("Reviewer Id", "u-3"), ("Business Id", "b-3"),
   ("Review Rating", "7"), ("Review Date", "2024-03-01")]

/-- A row whose rating string parses as an infinite float (claim C5). -/
def rowC5 : Raw :=
  [("Review Id", "r-4"), ("Reviewer Id", "u-4"), ("Business Id", "b-4"),
   ("Review Rating", "inf"), ("Review Date", "2024-03-01")]

/-- A store whose audit already holds the fingerprint `FP1` — recorded
under path `data/raw/a.xlsx` (claim C1). -/
def storeC1 : Store := ⟨[], [], [], [⟨"data/raw/a.xlsx", "FP1", 1, 1, 0, 1, 0⟩]⟩

/-- A byte-identical copy of that file at a different path: same
fingerprint, different `file` value. -/
def fileC1b : FileSrc := ⟨"data/raw/b.xlsx", "FP1", hdr0, [rowA]⟩

/-- The file whose `(path, fingerprint)` pair `storeC1`'s audit holds. -/
def fileC1a : FileSrc := ⟨"data/raw/a.xlsx", "FP1", hdr0, [rowA]⟩

/-- First upsert of the claim C2 scenario: business `b-1`, review date
`2024-01-01`. -/
def n0C2 : Norm :=
  { user_id := none, email_address := none, user_name := none,
    reviewer_country := none, business_id := some "b-1",
    business_name := some "Biz", review_id := none,
    review_date := some "2024-01-01", review_rating := none,
    review_title := none, review_content := none, review_ip_address := none }

/-- Second upsert of the claim C2 scenario: same business, earlier review
date `2023-06-01`, no incoming name. -/
def n1C2 : Norm :=
  { n0C2 with business_name := none, review_date := some "2023-06-01" }

/-- The store the two C2 upserts produce from empty: the date range
extended backward, `total_reviews = 2`. -/
def sC2 : Store :=
  ⟨[⟨some "b-1", "Biz", some "2023-06-01", some "2024-01-01", 2⟩], [], [], []⟩

/-- A row whose `Reviewer Name` cell is the empty string (as the reader
yields for a blank cell), re-using reviewer `u-1` (claim C3). -/
def rowC3b : Raw :=
  [("Review Id", "r-2"), ("Reviewer Id", "u-1"), ("Business Id", "b-1"),
   ("Review Rating", "4"), ("Review Date", "2024-01-02"), ("Reviewer Name", "")]

/-- The file of claim C3's counterexample: a named reviewer followed by
the same reviewer with a blank name cell. -/
def fileC3 : FileSrc := ⟨"data/raw/c3.xlsx", "F3", hdr0, [rowA, rowC3b]⟩

/-- The statistics tuple `process_file` returns for `fileC3`. -/
def stC3 : Stats :=
  (2, 2, 0, 2, 0,
   [{ user_id := some "u-1", email_address := some "user@example.com",
      user_name := some "Alice", reviewer_country := some "GB",
      business_id := some "b-1", business_name := some "Widgets Inc",
      review_id := some "r-1", review_date := some "2024-01-01T12:00:00Z",
      review_rating := some 5, review_title := some "Great",
      review_content := some "Loved it", review_ip_address := some "1.2.3.4",
      source_file := some "c3.xlsx", source_row := some 2 },
    { user_id := some "u-1", email_address := none, user_name := some "",
      reviewer_country := none, business_id := some "b-1",
      business_name := none, review_id := some "r-2",
      review_date := some "2024-01-02T00:00:00Z", review_rating := some 4,
      review_title := none, review_content := none, review_ip_address := none,
      source_file := some "c3.xlsx", source_row := some 3 }])

/-- The store `process_file` builds from empty for `fileC3`: note the
user row's raw `user_name` is the empty string while its redacted column
still holds the marker derived from the earlier name. -/
def sC3 : Store :=
  ⟨[⟨some "b-1", "Widgets Inc", some "2024-01-01T12:00:00Z",
     some "2024-01-02T00:00:00Z", 2⟩],
   [⟨some "u-1", some "user@example.com", some "sha256:user@example.com",
     some "", some "A***", some "GB", some "2024-01-01T12:00:00Z", 2⟩],
   [⟨some "r-1", "u-1", "b-1", "2024-01-01T12:00:00Z", 5, some "Great",
     some "Loved it", some "1.2.3.4", some "1.2.3.0", some "c3.xlsx", some 2⟩,
    ⟨some "r-2", "u-1", "b-1", "2024-01-02T00:00:00Z", 4, none, none, none,
     none, some "c3.xlsx", some 3⟩],
   [⟨"data/raw/c3.xlsx", "F3", 2, 2, 0, 2, 0⟩]⟩

/-- Stores reachable from the empty store through `process_file` calls —
the states the running pipeline can put the database in. -/
inductive Reach (hash : String → String) : Store → Prop
  | init : Reach hash Store.empty
  | step (s : Store) (f : FileSrc) (st : Stats) (s2 : Store) (q : Option Quar) :
      Reach hash s → process_file hash s f = Except.ok (st, s2, q) → Reach hash s2

/-- Shape facts every `validate_row` output satisfies (claim C3): the
normalized email is never the empty string (`email or None`) and the
normalized user name is trimmed. -/
def Shaped (n : Norm) : Prop :=
  n.email_address ≠ some "" ∧ ∀ t, n.user_name = some t → pyStrip t = t

/-- The derived-column invariant of one `user` row: the hash column is
the digest of the stored raw email; the redacted-name column always
holds a value `redact_name` produced (so it is a derived marker, never a
raw value that was stored as a name); and — except when an empty-string
incoming name overwrote the raw name while `COALESCE` kept the stale
marker — it is the redaction of the currently stored raw name. -/
def UserInv (hash : String → String) (u : UserRow) : Prop :=
  u.email_hash = email_hash_value hash u.email_address ∧
    (∃ v : Option String, u.user_name_redacted = redact_name v) ∧
    (u.user_name ≠ some "" → u.user_name_redacted = redact_name u.user_name)

/-- The derived-column invariant of the whole store (claim C3). -/
def StoreInv (hash : String → String) (s : Store) : Prop :=
  (∀ u ∈ s.user, UserInv hash u) ∧
    (∀ r ∈ s.review, r.review_ip_redacted = redact_ip r.review_ip_address)

/-- Modelled from the spec: the claimed output shape
`YYYY-MM-DDTHH:MM:SSZ` — twenty characters, digits at the date and time
positions, fixed separators in between, a terminal `Z`. -/
def isIsoZShape : List Char → Bool
  | [y1, y2, y3, y4, s1, m1, m2, s2, d1, d2, t, h1, h2, c1, n1, n2, c2, e1, e2, z] =>
    y1.isDigit && y2.isDigit && y3.isDigit && y4.isDigit && s1 = '-' &&
    m1.isDigit && m2.isDigit && s2 = '-' && d1.isDigit && d2.isDigit &&
    t = 'T' && h1.isDigit && h2.isDigit && c1 = ':' && n1.isDigit && n2.isDigit &&
    c2 = ':' && e1.isDigit && e2.isDigit && z = 'Z'
  | _ => false

/-- The field bounds every datetime built by `mkDT` satisfies (the
`datetime` constructor's invariant, on the stored fields). -/
def DTB (dt : DT) : Prop :=
  1 ≤ dt.year ∧ dt.year ≤ 9999 ∧ 1 ≤ dt.month ∧ dt.month ≤ 12 ∧
  1 ≤ dt.day ∧ dt.day ≤ daysInMonth dt.year dt.month ∧
  dt.hour ≤ 23 ∧ dt.minute ≤ 59 ∧ dt.second ≤ 59

/-! # Theorems -/

theorem digitChar_isDigit (d : Nat) (h : d < 10) : (digitChar d).isDigit = true := by
  unfold digitChar Char.isDigit
  interval_cases d <;> decide

theorem digitVal_digitChar (d : Nat) (h : d < 10) : digitVal (digitChar d) = d := by
  unfold digitChar digitVal
  interval_cases d <;> decide

/-! ## Duplicate detection (claim C7) -/

theorem ridAt_cons_succ (row : Raw) (rest : List Raw) (j : Nat) :
    ridAt (row :: rest) (j + 1) = ridAt rest j := by
  simp [ridAt]

theorem ridAt_cons_zero (row : Raw) (rest : List Raw) :
    ridAt (row :: rest) 0 = trim (rget row "Review Id") := by
  simp [ridAt]

theorem vbGo_cons_none (row : Raw) (rest : List Raw) (k : Nat) (seen : List String)
    (h : trim (rget row "Review Id") = none) :
    vbGo (row :: rest) k seen = vbGo rest (k + 1) seen := by
  simp [vbGo, h]

theorem vbGo_cons_empty (row : Raw) (rest : List Raw) (k : Nat) (seen : List String)
    (h : trim (rget row "Review Id") = some "") :
    vbGo (row :: rest) k seen = vbGo rest (k + 1) seen := by
  simp [vbGo, h]

theorem vbGo_cons_dup (row : Raw) (rest : List Raw) (k : Nat) (seen : List String)
    (r : String) (h : trim (rget row "Review Id") = some r) (hne : r ≠ "")
    (hmem : r ∈ seen) :
    vbGo (row :: rest) k seen =
      (k :: (vbGo rest (k + 1) seen).1,
       (k, ["Duplicate Review Id within file"]) :: (vbGo rest (k + 1) seen).2) := by
  simp [vbGo, h, hne, hmem]

theorem vbGo_cons_new (row : Raw) (rest : List Raw) (k : Nat) (seen : List String)
    (r : String) (h : trim (rget row "Review Id") = some r) (hne : r ≠ "")
    (hmem : r ∉ seen) :
    vbGo (row :: rest) k seen = vbGo rest (k + 1) (r :: seen) := by
  simp [vbGo, h, hne, hmem]

theorem dupAt_cons_succ (row : Raw) (rest : List Raw) (seen : List String) (j : Nat) :
    DupAt (row :: rest) seen (j + 1) ↔
      ∃ r, ridAt rest j = some r ∧ r ≠ "" ∧
        ((r ∈ seen ∨ trim (rget row "Review Id") = some r) ∨
          ∃ j2, j2 < j ∧ ridAt rest j2 = some r) := by
  constructor
  · rintro ⟨r, hr, hne, hseen | ⟨j2, hj2, hat⟩⟩
    · exact ⟨r, by rwa [ridAt_cons_succ] at hr, hne, Or.inl (Or.inl hseen)⟩
    · rcases j2 with _ | j2
      · exact ⟨r, by rwa [ridAt_cons_succ] at hr, hne,
          Or.inl (Or.inr (by rwa [ridAt_cons_zero] at hat))⟩
      · exact ⟨r, by rwa [ridAt_cons_succ] at hr, hne,
          Or.inr ⟨j2, by omega, by rwa [ridAt_cons_succ] at hat⟩⟩
  · rintro ⟨r, hr, hne, (hseen | hzero) | ⟨j2, hj2, hat⟩⟩
    · exact ⟨r, by rwa [ridAt_cons_succ], hne, Or.inl hseen⟩
    · exact ⟨r, by rwa [ridAt_cons_succ], hne,
        Or.inr ⟨0, by omega, by rwa [ridAt_cons_zero]⟩⟩
    · exact ⟨r, by rwa [ridAt_cons_succ], hne,
        Or.inr ⟨j2 + 1, by omega, by rwa [ridAt_cons_succ]⟩⟩

/-- Transport the scan one row forward: membership in the flagged list. -/
theorem vbGo_mem (rows : List Raw) (k : Nat) (seen : List String) (i : Nat) :
    i ∈ (vbGo rows k seen).1 ↔
      ∃ j, j < rows.length ∧ i = k + j ∧ DupAt rows seen j := by
  induction rows generalizing k seen with
  | nil => simp [vbGo, DupAt, ridAt]
  | cons row rest ih =>
    have hlen : (row :: rest).length = rest.length + 1 := by simp
    rcases hrid : trim (rget row "Review Id") with _ | r
    · rw [vbGo_cons_none row rest k seen hrid, ih]
      constructor
      · rintro ⟨j, hj, hi, ⟨r2, hr2, hne2, hpr⟩⟩
        refine ⟨j + 1, by omega, by omega, ?_⟩
        rw [dupAt_cons_succ]
        refine ⟨r2, hr2, hne2, ?_⟩
        rcases hpr with h | h
        · exact Or.inl (Or.inl h)
        · exact Or.inr h
      · rintro ⟨j, hj, hi, hd⟩
        rcases j with _ | j
        · rcases hd with ⟨r2, hr2, _, _⟩
          rw [ridAt_cons_zero, hrid] at hr2
          exact absurd hr2 (by simp)
        · refine ⟨j, by omega, by omega, ?_⟩
          rw [dupAt_cons_succ] at hd
          rcases hd with ⟨r2, hr2, hne2, ((h | h) | h)⟩
          · exact ⟨r2, hr2, hne2, Or.inl h⟩
          · rw [hrid] at h
            exact absurd h (by simp)
          · exact ⟨r2, hr2, hne2, Or.inr h⟩
    · by_cases hre : r = ""
      · subst hre
        rw [vbGo_cons_empty row rest k seen hrid, ih]
        constructor
        · rintro ⟨j, hj, hi, ⟨r2, hr2, hne2, hpr⟩⟩
          refine ⟨j + 1, by omega, by omega, ?_⟩
          rw [dupAt_cons_succ]
          refine ⟨r2, hr2, hne2, ?_⟩
          rcases hpr with h | h
          · exact Or.inl (Or.inl h)
          · exact Or.inr h
        · rintro ⟨j, hj, hi, hd⟩
          rcases j with _ | j
          · rcases hd with ⟨r2, hr2, hne2, _⟩
            rw [ridAt_cons_zero, hrid, Option.some_inj] at hr2
            exact absurd hr2.symm hne2
          · refine ⟨j, by omega, by omega, ?_⟩
            rw [dupAt_cons_succ] at hd
            rcases hd with ⟨r2, hr2, hne2, ((h | h) | h)⟩
            · exact ⟨r2, hr2, hne2, Or.inl h⟩
            · rw [hrid, Option.some_inj] at h
              exact absurd h.symm hne2
            · exact ⟨r2, hr2, hne2, Or.inr h⟩
      · by_cases hmem : r ∈ seen
        · rw [vbGo_cons_dup row rest k seen r hrid hre hmem]
          simp only [List.mem_cons]
          rw [ih]
          constructor
          · rintro (rfl | ⟨j, hj, hi, ⟨r2, hr2, hne2, hpr⟩⟩)
            · refine ⟨0, by omega, by omega, ?_⟩
              exact ⟨r, by rw [ridAt_cons_zero, hrid], hre, Or.inl hmem⟩
            · refine ⟨j + 1, by omega, by omega, ?_⟩
              rw [dupAt_cons_succ]
              refine ⟨r2, hr2, hne2, ?_⟩
              rcases hpr with h | h
              · exact Or.inl (Or.inl h)
              · exact Or.inr h
          · rintro ⟨j, hj, hi, hd⟩
            rcases j with _ | j
            · exact Or.inl (by omega)
            · refine Or.inr ⟨j, by omega, by omega, ?_⟩
              rw [dupAt_cons_succ] at hd
              rcases hd with ⟨r2, hr2, hne2, ((h | h) | h)⟩
              · exact ⟨r2, hr2, hne2, Or.inl h⟩
              · rw [hrid, Option.some_inj] at h
                exact ⟨r2, hr2, hne2, Or.inl (h ▸ hmem)⟩
              · exact ⟨r2, hr2, hne2, Or.inr h⟩
        · rw [vbGo_cons_new row rest k seen r hrid hre hmem, ih]
          constructor
          · rintro ⟨j, hj, hi, ⟨r2, hr2, hne2, hpr⟩⟩
            refine ⟨j + 1, by omega, by omega, ?_⟩
            rw [dupAt_cons_succ]
            refine ⟨r2, hr2, hne2, ?_⟩
            rcases hpr with h | h
            · rcases List.mem_cons.mp h with rfl | h2
              · exact Or.inl (Or.inr hrid)
              · exact Or.inl (Or.inl h2)
            · exact Or.inr h
          · rintro ⟨j, hj, hi, hd⟩
            rcases j with _ | j
            · rcases hd with ⟨r2, hr2, hne2, hpr⟩
              rw [ridAt_cons_zero, hrid, Option.some_inj] at hr2
              subst hr2
              rcases hpr with h | ⟨j2, hj2, _⟩
              · exact absurd h hmem
              · omega
            · refine ⟨j, by omega, by omega, ?_⟩
              rw [dupAt_cons_succ] at hd
              rcases hd with ⟨r2, hr2, hne2, ((h | h) | h)⟩
              · exact ⟨r2, hr2, hne2, Or.inl (List.mem_cons_of_mem _ h)⟩
              · rw [hrid, Option.some_inj] at h
                exact ⟨r2, hr2, hne2, Or.inl (h ▸ List.mem_cons_self _ _)⟩
              · exact ⟨r2, hr2, hne2, Or.inr h⟩

theorem vbGo_errs (rows : List Raw) (k : Nat) (seen : List String) :
    (vbGo rows k seen).2 =
      (vbGo rows k seen).1.map fun i => (i, ["Duplicate Review Id within file"]) := by
  induction rows generalizing k seen with
  | nil => simp [vbGo]
  | cons row rest ih =>
    rcases hrid : trim (rget row "Review Id") with _ | r
    · rw [vbGo_cons_none row rest k seen hrid]
      exact ih (k + 1) seen
    · by_cases hre : r = ""
      · subst hre
        rw [vbGo_cons_empty row rest k seen hrid]
        exact ih (k + 1) seen
      · by_cases hmem : r ∈ seen
        · rw [vbGo_cons_dup row rest k seen r hrid hre hmem]
          simpa using ih (k + 1) seen
        · rw [vbGo_cons_new row rest k seen r hrid hre hmem]
          exact ih (k + 1) (r :: seen)

theorem vbGo_lb (rows : List Raw) (k : Nat) (seen : List String) :
    ∀ i ∈ (vbGo rows k seen).1, k ≤ i := by
  induction rows generalizing k seen with
  | nil => simp [vbGo]
  | cons row rest ih =>
    intro i hi
    rcases hrid : trim (rget row "Review Id") with _ | r
    · rw [vbGo_cons_none row rest k seen hrid] at hi
      have := ih (k + 1) seen i hi
      omega
    · by_cases hre : r = ""
      · subst hre
        rw [vbGo_cons_empty row rest k seen hrid] at hi
        have := ih (k + 1) seen i hi
        omega
      · by_cases hmem : r ∈ seen
        · rw [vbGo_cons_dup row rest k seen r hrid hre hmem] at hi
          rcases List.mem_cons.mp hi with rfl | hi2
          · omega
          · have := ih (k + 1) seen i hi2
            omega
        · rw [vbGo_cons_new row rest k seen r hrid hre hmem] at hi
          have := ih (k + 1) (r :: seen) i hi
          omega

theorem vbGo_sorted (rows : List Raw) (k : Nat) (seen : List String) :
    List.Sorted (· < ·) (vbGo rows k seen).1 := by
  induction rows generalizing k seen with
  | nil => simp [vbGo]
  | cons row rest ih =>
    rcases hrid : trim (rget row "Review Id") with _ | r
    · rw [vbGo_cons_none row rest k seen hrid]
      exact ih (k + 1) seen
    · by_cases hre : r = ""
      · subst hre
        rw [vbGo_cons_empty row rest k seen hrid]
        exact ih (k + 1) seen
      · by_cases hmem : r ∈ seen
        · rw [vbGo_cons_dup row rest k seen r hrid hre hmem]
          refine List.sorted_cons.mpr ⟨?_, ih (k + 1) seen⟩
          intro b hb
          have := vbGo_lb rest (k + 1) seen b hb
          omega
        · rw [vbGo_cons_new row rest k seen r hrid hre hmem]
          exact ih (k + 1) (r :: seen)

/-- Claim C7: `validate_batch` flags exactly the second and later
occurrences of each trimmed nonempty review identifier — a zero-based
index is flagged iff its trimmed identifier is nonempty and some strictly
earlier row has the same trimmed identifier; the flagged indices come in
scan (strictly ascending) order; and the per-row error map attaches the
duplicate message to exactly the flagged rows. First occurrences and rows
with an empty or absent identifier are never flagged. -/
theorem C7_validate_batch_flags_repeats (rows : List Raw)
    (dups : List Nat) (errs : List (Nat × List String))
    (h : validate_batch rows = (dups, errs)) :
    (∀ i, i ∈ dups ↔
      ∃ r, ridAt rows i = some r ∧ r ≠ "" ∧ ∃ j, j < i ∧ ridAt rows j = some r) ∧
    List.Sorted (· < ·) dups ∧
    errs = dups.map (fun i => (i, ["Duplicate Review Id within file"])) := by
  have hd : dups = (vbGo rows 0 []).1 := by
    rw [show (vbGo rows 0 []) = validate_batch rows from rfl, h]
  have he : errs = (vbGo rows 0 []).2 := by
    rw [show (vbGo rows 0 []) = validate_batch rows from rfl, h]
  subst hd
  subst he
  refine ⟨fun i => ?_, vbGo_sorted rows 0 [], vbGo_errs rows 0 []⟩
  rw [vbGo_mem]
  constructor
  · rintro ⟨j, hj, hij, ⟨r, hr, hne, hpr⟩⟩
    have hij2 : i = j := by omega
    subst hij2
    rcases hpr with h2 | ⟨j2, hj2, hat⟩
    · simp at h2
    · exact ⟨r, hr, hne, j2, hj2, hat⟩
  · rintro ⟨r, hr, hne, j, hj, hat⟩
    have hlt : i < rows.length := by
      by_contra hge
      rw [ridAt, List.getElem?_eq_none (by omega)] at hr
      simp at hr
    exact ⟨i, hlt, by omega, ⟨r, hr, hne, Or.inr ⟨j, hj, hat⟩⟩⟩

/-- Witness for C7: the spec scenario with identifiers
`["dup-1", "dup-1", "unique", "dup-1"]` flags exactly indices 1 and 3. -/
theorem C7_validate_batch_flags_repeats_witness :
    validate_batch
        [[("Review Id", "dup-1")], [("Review Id", "dup-1")],
         [("Review Id", "unique")], [("Review Id", "dup-1")]] =
      ([1, 3], [(1, ["Duplicate Review Id within file"]),
                (3, ["Duplicate Review Id within file"])]) ∧
    List.Sorted (· < ·) [1, 3] := by
  refine ⟨by decide, ?_⟩
  exact (C7_validate_batch_flags_repeats
    [[("Review Id", "dup-1")], [("Review Id", "dup-1")],
     [("Review Id", "unique")], [("Review Id", "dup-1")]]
    [1, 3]
    [(1, ["Duplicate Review Id within file"]), (3, ["Duplicate Review Id within file"])]
    (by decide)).2.1

/-! ## Rating coercion (claim C5) -/

set_option maxRecDepth 10000 in
/-- Claim C5 (code bug in the source): `validate_row` is *not*
exception-free. `coerce_int` catches only `ValueError`, but
`float("inf")` parses and `int` of an infinity raises `OverflowError`,
which escapes `validate_row`; an ordinary out-of-range rating such as
`"7"` is rejected gracefully with the rating-specific message, and
`"3.0"` coerces to 3 as the claim states. -/
theorem C5_coerce_int_raises_overflow :
    coerce_int (some "inf") = Except.error Err.overflowError ∧
    validate_row rowC5 = Except.error Err.overflowError ∧
    coerce_int (some "3.0") = Except.ok (some 3) ∧
    (validate_row rowC5b).map (fun t => (t.1, t.2.1)) =
      Except.ok (false, ["Review Rating invalid: " ++ pyReprStr "7"]) := by
  decide

/-! ## Validation does not imply loadability (claim C10) -/

set_option maxRecDepth 10000 in
/-- Claim C10: a raw row with all five required columns valid but no
`Business Name` passes `validate_row` with an empty error list and a
`NULL` normalized business name; on first sight of that business,
`upsert_business`'s insert violates the `business.business_name`
`NOT NULL` constraint, so `process_file` raises instead of loading or
quarantining the row. -/
theorem C10_valid_row_can_fail_to_load :
    (validate_row rowC10).map (fun t => (t.1, t.2.1)) = Except.ok (true, []) ∧
    (validate_row rowC10).map (fun t => t.2.2.business_name) = Except.ok none ∧
    process_file sampleHash Store.empty fileC10 =
      Except.error (Err.notNullViolation "business" "business_name") := by
  decide

/-! ## Fingerprint skip (claim C1) -/

set_option maxRecDepth 10000 in
/-- Counterexample to claim C1 as stated: the skip test matches on the
pair `(file, sha256)`, not on the fingerprint alone. A store whose audit
holds fingerprint `FP1` under path `data/raw/a.xlsx` does not make
`process_file` skip a byte-identical file at `data/raw/b.xlsx`: the
returned statistics are nonzero and a second audit row is inserted. -/
theorem C1_counterexample_hash_alone_does_not_skip :
    (storeC1.load_audit.any fun a => a.sha256 = fileC1b.sha256) = true ∧
    (process_file sampleHash storeC1 fileC1b).map
        (fun r => (r.1.1, r.1.2.1, r.1.2.2.1, r.1.2.2.2.1, r.1.2.2.2.2.1)) =
      Except.ok (1, 1, 0, 1, 0) ∧
    (process_file sampleHash storeC1 fileC1b).map (fun r => r.2.1.load_audit.length) =
      Except.ok 2 := by
  decide

/-- A prior audit row with the same `(file, sha256)` pair makes
`process_file` return all-zero statistics with the store untouched and no
quarantine. -/
theorem process_file_skip (hash : String → String) (conn : Store) (f : FileSrc)
    (h : auditContains conn f.path f.sha256 = true) :
    process_file hash conn f = Except.ok ((0, 0, 0, 0, 0, []), conn, none) := by
  simp [process_file, h]

/-- A successful `process_file` leaves the audit containing the file's
`(path, fingerprint)` pair — it was either already there (skip) or has
just been inserted. -/
theorem process_file_auditContains (hash : String → String) (conn : Store) (f : FileSrc)
    (st : Stats) (s2 : Store) (q : Option Quar)
    (h : process_file hash conn f = Except.ok (st, s2, q)) :
    auditContains s2 f.path f.sha256 = true := by
  by_cases haud : auditContains conn f.path f.sha256 = true
  · rw [process_file_skip hash conn f haud] at h
    simp only [Except.ok.injEq, Prod.mk.injEq] at h
    rcases h with ⟨-, rfl, -⟩
    exact haud
  · simp only [Bool.not_eq_true] at haud
    rcases hpr : processRows (validate_batch f.rows).1 (pathBase f.path) f.rows 2 with e | tup
    · simp [process_file, haud, hpr] at h
    · obtain ⟨ri, rr, dp, df, bad, good⟩ := tup
      rcases hf : good.foldlM (upsertRow hash) conn with e2 | conn2
      · simp [process_file, haud, hpr, hf] at h
      · simp only [process_file, haud, Bool.false_eq_true, if_false, hpr, hf,
          Except.ok.injEq, Prod.mk.injEq] at h
        rcases h with ⟨-, rfl, -⟩
        simp [auditContains]

/-- Claim C1, amended: the skip key is the `(file path, fingerprint)`
pair, not the fingerprint alone. When the audit already holds the file's
own path together with its fingerprint, `process_file` returns the
all-zero statistics tuple, leaves the store untouched (no business, user,
review or audit writes) and produces no quarantine; and re-running
`process_file` on the same file after any successful run is such a no-op,
because the first run recorded exactly that pair. -/
theorem C1_skip_on_path_and_fingerprint_amended (hash : String → String)
    (conn : Store) (f : FileSrc) :
    (auditContains conn f.path f.sha256 = true →
      process_file hash conn f = Except.ok ((0, 0, 0, 0, 0, []), conn, none)) ∧
    (∀ st s2 q, process_file hash conn f = Except.ok (st, s2, q) →
      process_file hash s2 f = Except.ok ((0, 0, 0, 0, 0, []), s2, none)) :=
  ⟨process_file_skip hash conn f,
   fun st s2 q h =>
     process_file_skip hash s2 f (process_file_auditContains hash conn f st s2 q h)⟩

set_option maxRecDepth 10000 in
/-- Witness for the amended C1: the pre-audited `(path, fingerprint)`
pair of `storeC1` makes processing `fileC1a` a silent no-op. -/
theorem C1_skip_on_path_and_fingerprint_amended_witness :
    auditContains storeC1 fileC1a.path fileC1a.sha256 = true ∧
    process_file sampleHash storeC1 fileC1a =
      Except.ok ((0, 0, 0, 0, 0, []), storeC1, none) :=
  ⟨by decide,
   (C1_skip_on_path_and_fingerprint_amended sampleHash storeC1 fileC1a).1 (by decide)⟩

/-! ## Run-level transaction semantics (claim C4) -/

theorem upsert_business_audit (n : Norm) (s s2 : Store)
    (h : upsert_business n s = Except.ok s2) : s2.load_audit = s.load_audit := by
  unfold upsert_business at h
  split at h
  · simp only [Except.ok.injEq] at h
    subst h
    rfl
  · rcases hn : n.business_name with _ | nm <;> rw [hn] at h
    · cases h
    · simp only [Except.ok.injEq] at h
      subst h
      rfl

theorem upsert_user_audit (hash : String → String) (n : Norm) (s s2 : Store)
    (h : upsert_user hash n s = Except.ok s2) : s2.load_audit = s.load_audit := by
  unfold upsert_user at h
  split at h <;>
    (simp only [Except.ok.injEq] at h; subst h; rfl)

theorem upsert_review_audit (n : Norm) (s s2 : Store)
    (h : upsert_review n s = Except.ok s2) : s2.load_audit = s.load_audit := by
  unfold upsert_review at h
  split at h
  · split at h
    · cases h
    · cases h
    · simp only [Except.ok.injEq] at h
      subst h
      rfl
  · split at h
    · cases h
    · cases h
    · cases h
    · cases h
    · split at h
      · cases h
      · split at h
        · cases h
        · simp only [Except.ok.injEq] at h
          subst h
          rfl

theorem upsertRow_audit (hash : String → String) (s : Store) (n : Norm) (s2 : Store)
    (h : upsertRow hash s n = Except.ok s2) : s2.load_audit = s.load_audit := by
  unfold upsertRow at h
  rcases hb : upsert_business n s with e | s1 <;> simp only [hb] at h
  · exact Except.noConfusion h
  · rcases hu : upsert_user hash n s1 with e | sm <;> simp only [hu] at h
    · exact Except.noConfusion h
    · calc s2.load_audit = sm.load_audit := upsert_review_audit n sm s2 h
        _ = s1.load_audit := upsert_user_audit hash n s1 sm hu
        _ = s.load_audit := upsert_business_audit n s s1 hb

theorem foldlM_upsertRow_audit (hash : String → String) (good : List Norm)
    (s s2 : Store) (h : good.foldlM (upsertRow hash) s = Except.ok s2) :
    s2.load_audit = s.load_audit := by
  induction good generalizing s with
  | nil =>
    simp only [List.foldlM_nil, pure, Except.pure, Except.ok.injEq] at h
    subst h
    rfl
  | cons n rest ih =>
    simp only [List.foldlM_cons] at h
    rcases hu : upsertRow hash s n with e | s1 <;>
      simp only [hu, bind, Except.bind] at h
    · cases h
    · calc s2.load_audit = s1.load_audit := ih s1 h
        _ = s.load_audit := upsertRow_audit hash s n s1 hu

/-- A successful `process_file` only ever appends to the audit: a pair
already recorded stays recorded. -/
theorem process_file_audit_mono (hash : String → String) (conn : Store) (f : FileSrc)
    (st : Stats) (s2 : Store) (q : Option Quar) (p hsh : String)
    (h : process_file hash conn f = Except.ok (st, s2, q))
    (hprev : auditContains conn p hsh = true) :
    auditContains s2 p hsh = true := by
  by_cases haud : auditContains conn f.path f.sha256 = true
  · rw [process_file_skip hash conn f haud] at h
    simp only [Except.ok.injEq, Prod.mk.injEq] at h
    rcases h with ⟨-, rfl, -⟩
    exact hprev
  · simp only [Bool.not_eq_true] at haud
    rcases hpr : processRows (validate_batch f.rows).1 (pathBase f.path) f.rows 2 with e | tup
    · simp [process_file, haud, hpr] at h
    · obtain ⟨ri, rr, dp, df, bad, good⟩ := tup
      rcases hf : good.foldlM (upsertRow hash) conn with e2 | conn2
      · simp [process_file, haud, hpr, hf] at h
      · simp only [process_file, haud, Bool.false_eq_true, if_false, hpr, hf,
          Except.ok.injEq, Prod.mk.injEq] at h
        rcases h with ⟨-, rfl, -⟩
        have hc2 : conn2.load_audit = conn.load_audit :=
          foldlM_upsertRow_audit hash good conn conn2 hf
        simp only [auditContains] at hprev ⊢
        simp [List.any_append, hc2, hprev]

/-- An audit pair recorded before some files are processed is still
recorded after the run succeeds. -/
theorem runFiles_audit_mono (hash : String → String) :
    ∀ (fs : List FileSrc) (mid s2 : Store) (p hsh : String),
      runFiles hash mid fs = Except.ok s2 →
      auditContains mid p hsh = true → auditContains s2 p hsh = true := by
  intro fs
  induction fs with
  | nil =>
    intro mid s2 p hsh hok h1
    simp only [runFiles, Except.ok.injEq] at hok
    subst hok
    exact h1
  | cons f2 fs2 ih =>
    intro mid s2 p hsh hok h1
    simp only [runFiles] at hok
    rcases hp2 : process_file hash mid f2 with e2 | r2 <;> simp only [hp2] at hok
    · exact Except.noConfusion hok
    · exact ih r2.2.1 s2 p hsh hok
        (process_file_audit_mono hash mid f2 r2.1 r2.2.1 r2.2.2 p hsh (by rw [hp2]) h1)

/-- After a successful run, every processed file's `(path, fingerprint)`
pair is in the audit. -/
theorem runFiles_audit_all (hash : String → String) :
    ∀ (files : List FileSrc) (s s2 : Store),
      runFiles hash s files = Except.ok s2 →
      ∀ f ∈ files, auditContains s2 f.path f.sha256 = true := by
  intro files
  induction files with
  | nil =>
    intro s s2 _ f hf
    simp at hf
  | cons f fs ih =>
    intro s s2 hok g hg
    simp only [runFiles] at hok
    rcases hp : process_file hash s f with e | r <;> simp only [hp] at hok
    · exact Except.noConfusion hok
    · rcases List.mem_cons.mp hg with rfl | hgs
      · exact runFiles_audit_mono hash fs r.2.1 s2 g.path g.sha256 hok
          (process_file_auditContains hash s g r.1 r.2.1 r.2.2 (by rw [hp]))
      · exact ih r.2.1 s2 hok g hgs

/-- Claim C4, amended: the whole run is one transaction. When any file of
a run fails, `db.connect`'s rollback leaves the durable store exactly the
pre-run state — no business, user, review or audit row from *any* file of
the run (the failing one or the earlier completed ones) is persisted, so
the fingerprints of earlier files in the same run are not yet durable at
the moment a later file fails. Only after the run completes does the
single commit make every processed file's `(path, fingerprint)` pair
durable, so a retry skips all of them. -/
theorem C4_run_is_one_transaction_amended (hash : String → String)
    (s : Store) (files : List FileSrc) :
    (∀ e, runFiles hash s files = Except.error e → durableAfter hash s files = s) ∧
    (∀ s2, runFiles hash s files = Except.ok s2 →
      durableAfter hash s files = s2 ∧
        ∀ f ∈ files, auditContains s2 f.path f.sha256 = true) := by
  constructor
  · intro e he
    simp [durableAfter, he]
  · intro s2 hok
    exact ⟨by simp [durableAfter, hok], runFiles_audit_all hash files s s2 hok⟩

set_option maxRecDepth 10000 in
/-- Witness for the amended C4 at a concrete two-file run: the first file
succeeds on its own, yet when the second file fails (a validated row with
no business name violating the `NOT NULL` insert), the run errors and the
durable store is exactly the initial one. -/
theorem C4_run_is_one_transaction_amended_witness :
    (process_file sampleHash Store.empty fileC8).toOption.isSome = true ∧
    runFiles sampleHash Store.empty [fileC8, fileC10] =
      Except.error (Err.notNullViolation "business" "business_name") ∧
    durableAfter sampleHash Store.empty [fileC8, fileC10] = Store.empty :=
  ⟨by decide, by decide,
   (C4_run_is_one_transaction_amended sampleHash Store.empty [fileC8, fileC10]).1
     (Err.notNullViolation "business" "business_name") (by decide)⟩

set_option maxRecDepth 10000 in
/-- Counterexample to claim C4 as stated: at the moment the second file of
the run fails, the fingerprint of the first, completed file is *not*
durably recorded — the run's single transaction rolls everything back, so
a retry would reprocess the first file too. -/
theorem C4_counterexample_earlier_fingerprint_not_durable :
    (process_file sampleHash Store.empty fileC8).toOption.isSome = true ∧
    (runFiles sampleHash Store.empty [fileC8, fileC10]).toOption = none ∧
    auditContains (durableAfter sampleHash Store.empty [fileC8, fileC10])
      fileC8.path fileC8.sha256 = false := by
  decide

/-! ## Business upsert accumulation (claim C2) -/

theorem chLt_irrefl (l : List Char) : chLt l l = false := by
  induction l with
  | nil => rfl
  | cons a as ih => simp [chLt, if_neg (lt_irrefl a), ih]

theorem chLt_trans : ∀ (a b c : List Char),
    chLt a b = true → chLt b c = true → chLt a c = true := by
  intro a
  induction a with
  | nil =>
    intro b c hab hbc
    cases b with
    | nil => cases hab
    | cons b0 bs =>
      cases c with
      | nil => cases hbc
      | cons c0 cs => rfl
  | cons a0 as ih =>
    intro b c hab hbc
    cases b with
    | nil => cases hab
    | cons b0 bs =>
      cases c with
      | nil => cases hbc
      | cons c0 cs =>
        simp only [chLt] at hab hbc ⊢
        by_cases h1 : a0 < b0
        · by_cases h2 : b0 < c0
          · simp [lt_trans h1 h2]
          · simp only [h2, if_false] at hbc
            by_cases h3 : c0 < b0
            · simp [h3] at hbc
            · have hbc0 : b0 = c0 := le_antisymm (not_lt.mp h3) (not_lt.mp h2)
              subst hbc0
              simp [h1]
        · simp only [h1, if_false] at hab
          by_cases h1b : b0 < a0
          · simp [h1b] at hab
          · simp only [h1b, if_false] at hab
            have hab0 : a0 = b0 := le_antisymm (not_lt.mp h1b) (not_lt.mp h1)
            subst hab0
            by_cases h2 : a0 < c0
            · simp [h2]
            · simp only [h2, if_false] at hbc ⊢
              by_cases h3 : c0 < a0
              · simp [h3] at hbc
              · simp only [h3, if_false] at hbc ⊢
                exact ih bs cs hab hbc

theorem chLt_tri : ∀ (a b : List Char), chLt a b = true ∨ chLt b a = true ∨ a = b := by
  intro a
  induction a with
  | nil =>
    intro b
    cases b with
    | nil => right; right; rfl
    | cons b0 bs => left; rfl
  | cons a0 as ih =>
    intro b
    cases b with
    | nil => right; left; rfl
    | cons b0 bs =>
      rcases lt_trichotomy a0 b0 with h | h | h
      · left; simp [chLt, h]
      · subst h
        rcases ih bs with h2 | h2 | h2
        · left; simp [chLt, if_neg (lt_irrefl a0), h2]
        · right; left; simp [chLt, if_neg (lt_irrefl a0), h2]
        · right; right; rw [h2]
      · right; left; simp [chLt, h]

theorem strLt_irrefl (s : String) : strLt s s = false := chLt_irrefl s.data

theorem strLt_trans {a b c : String} (h1 : strLt a b = true) (h2 : strLt b c = true) :
    strLt a c = true := chLt_trans a.data b.data c.data h1 h2

theorem strLt_tri (a b : String) : strLt a b = true ∨ strLt b a = true ∨ a = b := by
  rcases chLt_tri a.data b.data with h | h | h
  · exact Or.inl h
  · exact Or.inr (Or.inl h)
  · refine Or.inr (Or.inr ?_)
    cases a
    cases b
    exact congrArg String.mk h

theorem sqlLe_refl (x : String) : sqlLe (some x) (some x) = true := by
  simp [sqlLe, strLt_irrefl]

theorem sqlLe_of_strLt {x y : String} (h : strLt x y = true) :
    sqlLe (some x) (some y) = true := by
  simp only [sqlLe, Bool.not_eq_true']
  by_contra hc
  simp only [Bool.not_eq_false] at hc
  have h2 := strLt_trans h hc
  rw [strLt_irrefl] at h2
  cases h2

theorem sqlLe_trans : ∀ {a b c : Option String},
    sqlLe a b = true → sqlLe b c = true → sqlLe a c = true := by
  intro a b c h1 h2
  rcases a with _ | x
  · cases h1
  rcases b with _ | y
  · cases h1
  rcases c with _ | z
  · cases h2
  simp only [sqlLe, Bool.not_eq_true'] at h1 h2 ⊢
  by_contra hc
  simp only [Bool.not_eq_false] at hc
  rcases strLt_tri x y with hxy | hxy | hxy
  · have h3 := strLt_trans hc hxy
    rw [h2] at h3
    cases h3
  · rw [hxy] at h1
    cases h1
  · subst hxy
    rw [hc] at h2
    cases h2

theorem minD_some (x y : String) :
    minD (some x) (some y) = if strLt y x then some y else some x := by
  simp [minD, sqlLt]

theorem maxD_some (x y : String) :
    maxD (some x) (some y) = if strLt x y then some y else some x := by
  simp [maxD, sqlGt]

/-- The fold of the `first_review_date` CASE over a list of non-null dates
computes a minimum: a member of the collection that is a lower bound. -/
theorem foldl_minD_min : ∀ (ds : List (Option String)) (x : String),
    (∀ d ∈ ds, ∃ v, d = some v) →
      ((ds.foldl minD (some x) = some x ∨ ds.foldl minD (some x) ∈ ds) ∧
        sqlLe (ds.foldl minD (some x)) (some x) = true ∧
        ∀ d ∈ ds, sqlLe (ds.foldl minD (some x)) d = true) := by
  intro ds
  induction ds with
  | nil =>
    intro x _
    exact ⟨Or.inl rfl, sqlLe_refl x, by simp⟩
  | cons d ds ih =>
    intro x hds
    obtain ⟨y, rfl⟩ := hds d (List.mem_cons_self d ds)
    have hds2 : ∀ d2 ∈ ds, ∃ v, d2 = some v :=
      fun d2 hd2 => hds d2 (List.mem_cons_of_mem _ hd2)
    simp only [List.foldl_cons, minD_some]
    by_cases hyx : strLt y x = true
    · simp only [hyx, if_true]
      obtain ⟨hmem, hle, hall⟩ := ih y hds2
      refine ⟨?_, ?_, ?_⟩
      · rcases hmem with h | h
        · exact Or.inr (by rw [h]; exact List.mem_cons_self _ _)
        · exact Or.inr (List.mem_cons_of_mem _ h)
      · exact sqlLe_trans hle (sqlLe_of_strLt hyx)
      · intro d2 hd2
        rcases List.mem_cons.mp hd2 with rfl | h2
        · exact hle
        · exact hall d2 h2
    · simp only [hyx, if_false]
      obtain ⟨hmem, hle, hall⟩ := ih x hds2
      refine ⟨?_, hle, ?_⟩
      · rcases hmem with h | h
        · exact Or.inl h
        · exact Or.inr (List.mem_cons_of_mem _ h)
      · intro d2 hd2
        rcases List.mem_cons.mp hd2 with rfl | h2
        · refine sqlLe_trans hle ?_
          have hf : strLt y x = false := by simpa using hyx
          simp [sqlLe, hf]
        · exact hall d2 h2

/-- The fold of the `last_review_date` CASE computes a maximum. -/
theorem foldl_maxD_max : ∀ (ds : List (Option String)) (x : String),
    (∀ d ∈ ds, ∃ v, d = some v) →
      ((ds.foldl maxD (some x) = some x ∨ ds.foldl maxD (some x) ∈ ds) ∧
        sqlLe (some x) (ds.foldl maxD (some x)) = true ∧
        ∀ d ∈ ds, sqlLe d (ds.foldl maxD (some x)) = true) := by
  intro ds
  induction ds with
  | nil =>
    intro x _
    exact ⟨Or.inl rfl, sqlLe_refl x, by simp⟩
  | cons d ds ih =>
    intro x hds
    obtain ⟨y, rfl⟩ := hds d (List.mem_cons_self d ds)
    have hds2 : ∀ d2 ∈ ds, ∃ v, d2 = some v :=
      fun d2 hd2 => hds d2 (List.mem_cons_of_mem _ hd2)
    simp only [List.foldl_cons, maxD_some]
    by_cases hxy : strLt x y = true
    · simp only [hxy, if_true]
      obtain ⟨hmem, hle, hall⟩ := ih y hds2
      refine ⟨?_, ?_, ?_⟩
      · rcases hmem with h | h
        · exact Or.inr (by rw [h]; exact List.mem_cons_self _ _)
        · exact Or.inr (List.mem_cons_of_mem _ h)
      · exact sqlLe_trans (sqlLe_of_strLt hxy) hle
      · intro d2 hd2
        rcases List.mem_cons.mp hd2 with rfl | h2
        · exact hle
        · exact hall d2 h2
    · simp only [hxy, if_false]
      obtain ⟨hmem, hle, hall⟩ := ih x hds2
      refine ⟨?_, hle, ?_⟩
      · rcases hmem with h | h
        · exact Or.inl h
        · exact Or.inr (List.mem_cons_of_mem _ h)
      · intro d2 hd2
        rcases List.mem_cons.mp hd2 with rfl | h2
        · refine sqlLe_trans ?_ hle
          have hf : strLt x y = false := by simpa using hxy
          simp [sqlLe, hf]
        · exact hall d2 h2

theorem updateFirst_append {α : Type} (p : α → Bool) (f : α → α)
    (pre : List α) (rec : α) (post : List α)
    (hpre : ∀ r ∈ pre, p r = false) (hrec : p rec = true) :
    updateFirst p f (pre ++ rec :: post) = pre ++ f rec :: post := by
  induction pre with
  | nil => simp [updateFirst, hrec]
  | cons x xs ih =>
    have hx : p x = false := hpre x (List.mem_cons_self x xs)
    simp only [List.cons_append, updateFirst, hx, Bool.false_eq_true, if_false,
      List.cons.injEq, true_and]
    exact ih fun r hr => hpre r (List.mem_cons_of_mem x hr)

theorem upsert_business_insert (n : Norm) (s : Store) (nm : String)
    (hno : s.business.any (fun r => r.business_id = n.business_id) = false)
    (hname : n.business_name = some nm) :
    upsert_business n s = Except.ok
      { s with business := s.business ++ [⟨n.business_id, nm, n.review_date, n.review_date, 1⟩] } := by
  unfold upsert_business
  simp [hno, hname]

theorem upsert_business_conflict (n : Norm) (s : Store) (bid : String)
    (pre post : List BizRow) (rec : BizRow)
    (hbid : n.business_id = some bid)
    (hb : s.business = pre ++ rec :: post)
    (hpre : ∀ r ∈ pre, r.business_id ≠ some bid)
    (hrec : rec.business_id = some bid) :
    upsert_business n s = Except.ok { s with business := pre ++ bizUpd n rec :: post } := by
  have hany : s.business.any (fun r => r.business_id = n.business_id) = true := by
    rw [hb, hbid]
    refine List.any_eq_true.mpr ⟨rec, ?_, by simp [hrec]⟩
    simp
  unfold upsert_business
  rw [hbid] at hany ⊢
  simp only [Option.isSome_some, Bool.true_and, hany, if_true]
  rw [hb, updateFirst_append]
  · intro r hr
    simp [hpre r hr]
  · simp [hrec]

/-- Folding further `upsert_business` calls for `bid` over a store whose
business table already holds the `bid` row updates exactly that row, one
CASE/increment step per call. -/
theorem foldl_upsert_business (bid : String) :
    ∀ (rest : List Norm) (pre post : List BizRow) (rec : BizRow) (s sN : Store),
      (∀ n ∈ rest, n.business_id = some bid) →
      s.business = pre ++ rec :: post →
      (∀ r ∈ pre, r.business_id ≠ some bid) →
      rec.business_id = some bid →
      rest.foldlM (fun s n => upsert_business n s) s = Except.ok sN →
      ∃ recN : BizRow,
        sN.business = pre ++ recN :: post ∧
        recN.business_id = some bid ∧
        recN.total_reviews = rec.total_reviews + rest.length ∧
        recN.first_review_date =
          rest.foldl (fun a n => minD a n.review_date) rec.first_review_date ∧
        recN.last_review_date =
          rest.foldl (fun a n => maxD a n.review_date) rec.last_review_date := by
  intro rest
  induction rest with
  | nil =>
    intro pre post rec s sN _ hs hpre hrec hfold
    simp only [List.foldlM_nil, pure, Except.pure, Except.ok.injEq] at hfold
    subst hfold
    exact ⟨rec, hs, hrec, by simp, rfl, rfl⟩
  | cons n rest ih =>
    intro pre post rec s sN hbid hs hpre hrec hfold
    simp only [List.foldlM_cons] at hfold
    have hn : n.business_id = some bid := hbid n (List.mem_cons_self n rest)
    rw [upsert_business_conflict n s bid pre post rec hn hs hpre hrec] at hfold
    simp only [bind, Except.bind] at hfold
    obtain ⟨recN, h1, h2, h3, h4, h5⟩ :=
      ih pre post (bizUpd n rec) _ sN
        (fun n2 hn2 => hbid n2 (List.mem_cons_of_mem n hn2))
        rfl hpre (by simp [bizUpd, hrec]) hfold
    refine ⟨recN, h1, h2, ?_, ?_, ?_⟩
    · rw [h3]
      simp only [bizUpd, List.length_cons]
      omega
    · rw [h4]
      simp [bizUpd, minD, List.foldl_cons]
    · rw [h5]
      simp [bizUpd, maxD, List.foldl_cons]

/-- Claim C2: across `n ≥ 1` `upsert_business` calls for the same
business id (each carrying a non-null review date, the first carrying a
name so the insert satisfies `NOT NULL`, the id fresh in the store),
afterwards the business row holds `total_reviews = n` — incremented by
exactly one per call, never decremented — and `first_review_date` /
`last_review_date` are the minimum/maximum of all the review dates seen,
each maintained by comparison (one CASE step per call), not blind
overwrite. -/
theorem C2_business_totals_and_date_range
    (bid : String) (n0 : Norm) (rest : List Norm) (s0 sN : Store)
    (hbid : ∀ n ∈ (n0 :: rest), n.business_id = some bid)
    (hdates : ∀ n ∈ (n0 :: rest), ∃ v, n.review_date = some v)
    (hname : ∃ nm, n0.business_name = some nm)
    (hclean : ∀ r ∈ s0.business, r.business_id ≠ some bid)
    (hfold : (n0 :: rest).foldlM (fun s n => upsert_business n s) s0 = Except.ok sN) :
    ∃ rec ∈ sN.business, rec.business_id = some bid ∧
      rec.total_reviews = (n0 :: rest).length ∧
      rec.first_review_date ∈ (n0 :: rest).map Norm.review_date ∧
      (∀ n ∈ (n0 :: rest), sqlLe rec.first_review_date n.review_date = true) ∧
      rec.last_review_date ∈ (n0 :: rest).map Norm.review_date ∧
      (∀ n ∈ (n0 :: rest), sqlLe n.review_date rec.last_review_date = true) := by
  obtain ⟨nm, hnm⟩ := hname
  have hno : s0.business.any (fun r => r.business_id = n0.business_id) = false := by
    rw [List.any_eq_false]
    intro r hr
    rw [hbid n0 (List.mem_cons_self n0 rest)]
    simp [hclean r hr]
  simp only [List.foldlM_cons] at hfold
  rw [upsert_business_insert n0 s0 nm hno hnm] at hfold
  simp only [bind, Except.bind] at hfold
  obtain ⟨d0, hd0⟩ := hdates n0 (List.mem_cons_self n0 rest)
  obtain ⟨recN, h1, h2, h3, h4, h5⟩ :=
    foldl_upsert_business bid rest s0.business []
      ⟨n0.business_id, nm, n0.review_date, n0.review_date, 1⟩ _ sN
      (fun n2 hn2 => hbid n2 (List.mem_cons_of_mem n0 hn2))
      (by simp) hclean (hbid n0 (List.mem_cons_self n0 rest)) hfold
  have hds2 : ∀ d ∈ rest.map Norm.review_date, ∃ v, d = some v := by
    intro d hd
    obtain ⟨n2, hn2, rfl⟩ := List.mem_map.mp hd
    exact hdates n2 (List.mem_cons_of_mem n0 hn2)
  have hfoldmap_min :
      rest.foldl (fun a n => minD a n.review_date) n0.review_date =
        (rest.map Norm.review_date).foldl minD n0.review_date := by
    rw [List.foldl_map]
  have hfoldmap_max :
      rest.foldl (fun a n => maxD a n.review_date) n0.review_date =
        (rest.map Norm.review_date).foldl maxD n0.review_date := by
    rw [List.foldl_map]
  obtain ⟨hminmem, hminle, hminall⟩ := foldl_minD_min (rest.map Norm.review_date) d0
    hds2
  obtain ⟨hmaxmem, hmaxle, hmaxall⟩ := foldl_maxD_max (rest.map Norm.review_date) d0
    hds2
  rw [hd0] at hfoldmap_min hfoldmap_max
  refine ⟨recN, by rw [h1]; simp, h2, by rw [h3]; simp; omega, ?_, ?_, ?_, ?_⟩
  · rw [h4]
    simp only [hd0, hfoldmap_min]
    rcases hminmem with h | h
    · rw [List.map_cons, hd0, h]
      exact List.mem_cons_self _ _
    · rw [List.map_cons, hd0]
      exact List.mem_cons_of_mem _ h
  · intro n2 hn2
    rw [h4]
    simp only [hd0, hfoldmap_min]
    rcases List.mem_cons.mp hn2 with rfl | h2
    · rw [hd0]
      exact hminle
    · exact hminall n2.review_date (List.mem_map.mpr ⟨n2, h2, rfl⟩)
  · rw [h5]
    simp only [hd0, hfoldmap_max]
    rcases hmaxmem with h | h
    · rw [List.map_cons, hd0, h]
      exact List.mem_cons_self _ _
    · rw [List.map_cons, hd0]
      exact List.mem_cons_of_mem _ h
  · intro n2 hn2
    rw [h5]
    simp only [hd0, hfoldmap_max]
    rcases List.mem_cons.mp hn2 with rfl | h2
    · rw [hd0]
      exact hmaxle
    · exact hmaxall n2.review_date (List.mem_map.mpr ⟨n2, h2, rfl⟩)

set_option maxRecDepth 10000 in
/-- Witness for C2 at the spec's example: upserting business `b-1` twice
with dates `2024-01-01` then `2023-06-01` yields
`first_review_date = 2023-06-01`, `last_review_date = 2024-01-01` and
`total_reviews = 2`. -/
theorem C2_business_totals_and_date_range_witness :
    ([n0C2, n1C2].foldlM (fun s n => upsert_business n s) Store.empty = Except.ok sC2) ∧
    (∃ rec ∈ sC2.business, rec.business_id = some "b-1" ∧
      rec.total_reviews = 2 ∧
      rec.first_review_date ∈ [n0C2, n1C2].map Norm.review_date ∧
      (∀ n ∈ [n0C2, n1C2], sqlLe rec.first_review_date n.review_date = true) ∧
      rec.last_review_date ∈ [n0C2, n1C2].map Norm.review_date ∧
      (∀ n ∈ [n0C2, n1C2], sqlLe n.review_date rec.last_review_date = true)) ∧
    sC2.business = [⟨some "b-1", "Biz", some "2023-06-01", some "2024-01-01", 2⟩] := by
  refine ⟨by decide, ?_, by decide⟩
  have := C2_business_totals_and_date_range "b-1" n0C2 [n1C2] Store.empty sC2
    (by decide) ?_ ⟨"Biz", by decide⟩ (by simp [Store.empty]) (by decide)
  · simpa using this
  · intro n hn
    rcases List.mem_cons.mp hn with rfl | hn2
    · exact ⟨"2024-01-01", by decide⟩
    · rcases List.mem_cons.mp hn2 with rfl | hn3
      · exact ⟨"2023-06-01", by decide⟩
      · simp at hn3

/-! ## The two-row scenario (claim C8) -/

set_option maxRecDepth 10000 in
/-- Claim C8: on a fresh store, the two-row file whose first row is fully
valid and whose second row has a duplicate review id plus an invalid email
and an invalid IP yields `rows_in=2, rows_loaded=1, rows_rejected=1,
dq_pass=1, dq_fail=1`, persists exactly one review row lineage-tagged with
the source file's basename and spreadsheet row 2, and produces exactly one
quarantine record whose error column joins the email error, the IP error
and the duplicate flag. -/
theorem C8_two_row_file_stats_and_artifacts :
    (process_file sampleHash Store.empty fileC8).map
        (fun r => (r.1.1, r.1.2.1, r.1.2.2.1, r.1.2.2.2.1, r.1.2.2.2.2.1)) =
      Except.ok (2, 1, 1, 1, 1) ∧
    (process_file sampleHash Store.empty fileC8).map
        (fun r => r.2.1.review.map fun v => (v.review_id, v.source_file, v.source_row)) =
      Except.ok [(some "r-1", some "sample.xlsx", some 2)] ∧
    (process_file sampleHash Store.empty fileC8).map (fun r => r.2.2.map Quar.records) =
      Except.ok (some [["r-1", "u-2", "b-1", "4", "2024-01-02", "", "", "bad-email",
        "not-an-ip", "", "", "", c8Reason]]) := by
  decide

/-! ## The private read projection (claim C3) -/

theorem dropWhile_eq_self_of_head (p : Char → Bool) (l : List Char)
    (h : ∀ a, l.head? = some a → p a = false) : l.dropWhile p = l := by
  cases l with
  | nil => rfl
  | cons c cs => simp [List.dropWhile_cons, h c rfl]

theorem getLast?_suffix {l1 l2 : List Char} (h : l1 <:+ l2) (hne : l1 ≠ []) :
    l1.getLast? = l2.getLast? := by
  obtain ⟨t, rfl⟩ := h
  rw [List.getLast?_append_of_ne_nil t hne]

theorem stripChars_idem (l : List Char) : stripChars (stripChars l) = stripChars l := by
  unfold stripChars
  have hA := List.head?_dropWhile_not isPySpace l
  have hstep1 :
      (((l.dropWhile isPySpace).reverse.dropWhile isPySpace).reverse).dropWhile isPySpace =
        ((l.dropWhile isPySpace).reverse.dropWhile isPySpace).reverse := by
    apply dropWhile_eq_self_of_head
    intro a ha
    rw [List.head?_reverse] at ha
    have hne : (l.dropWhile isPySpace).reverse.dropWhile isPySpace ≠ [] := by
      intro hc
      rw [hc] at ha
      cases ha
    rw [getLast?_suffix (List.dropWhile_suffix isPySpace) hne, List.getLast?_reverse] at ha
    rw [ha] at hA
    exact hA
  rw [hstep1, List.reverse_reverse, List.dropWhile_idempotent]

theorem pyStrip_idem (s : String) : pyStrip (pyStrip s) = pyStrip s := by
  simp [pyStrip, stripChars_idem]

theorem validate_row_shaped (raw : Raw) (b : Bool) (errs : List String) (n : Norm)
    (h : validate_row raw = Except.ok (b, errs, n)) : Shaped n := by
  unfold validate_row at h
  rcases hc : coerce_int (some (rgetD raw "Review Rating" "")) with e | v <;>
    simp only [hc, bind, Except.bind] at h
  · exact Except.noConfusion h
  · simp only [pure, Except.pure, Except.ok.injEq, Prod.mk.injEq] at h
    obtain ⟨-, -, hn⟩ := h
    subst hn
    constructor
    · rcases he : trim (rget raw "Email Address") with _ | e2
      · simp [falsyS, he]
      · by_cases he2 : e2 = ""
        · subst he2
          simp [falsyS, he]
        · simp [falsyS, he, he2]
    · intro t ht
      simp only [trim] at ht
      rcases hg : rget raw "Reviewer Name" with _ | s0 <;> rw [hg] at ht
      · exact Option.noConfusion ht
      · simp only [Option.map_some'] at ht
        rw [Option.some_inj] at ht
        rw [← ht]
        exact pyStrip_idem s0

theorem updateFirst_mem {α : Type} (p : α → Bool) (f : α → α) :
    ∀ (l : List α) (x : α), x ∈ updateFirst p f l → x ∈ l ∨ ∃ y ∈ l, x = f y := by
  intro l
  induction l with
  | nil => intro x hx; cases hx
  | cons a as ih =>
    intro x hx
    simp only [updateFirst] at hx
    by_cases ha : p a = true
    · rw [if_pos ha] at hx
      rcases List.mem_cons.mp hx with rfl | h2
      · exact Or.inr ⟨a, List.mem_cons_self a as, rfl⟩
      · exact Or.inl (List.mem_cons_of_mem a h2)
    · rw [if_neg ha] at hx
      rcases List.mem_cons.mp hx with rfl | h2
      · exact Or.inl (List.mem_cons_self x as)
      · rcases ih x h2 with h3 | ⟨y, hy, rfl⟩
        · exact Or.inl (List.mem_cons_of_mem a h3)
        · exact Or.inr ⟨y, List.mem_cons_of_mem a hy, rfl⟩

theorem userUpd_inv (hash : String → String) (n : Norm) (u : UserRow)
    (hsh : Shaped n) (hu : UserInv hash u) : UserInv hash (userUpd hash n u) := by
  obtain ⟨hemail, himg, hname⟩ := hu
  obtain ⟨hne, htrim⟩ := hsh
  refine ⟨?_, ?_, ?_⟩
  · rcases he : n.email_address with _ | e
    · simp [userUpd, coalesce, email_hash_value, he, hemail]
    · have he2 : ¬ (e = "") := fun hc => hne (by rw [he, hc])
      simp [userUpd, coalesce, email_hash_value, he, he2]
  · rcases hr : redact_name n.user_name with _ | x
    · obtain ⟨v, hv⟩ := himg
      exact ⟨v, by simp [userUpd, coalesce, hr, hv]⟩
    · exact ⟨n.user_name, by simp [userUpd, coalesce, hr]⟩
  · intro hne2
    rcases hn : n.user_name with _ | t
    · simp only [userUpd, coalesce, redact_name, hn] at hne2 ⊢
      exact hname hne2
    · by_cases ht : t = ""
      · subst ht
        simp [userUpd, coalesce, hn] at hne2
      · have htr : pyStrip t = t := htrim t hn
        simp [userUpd, coalesce, hn, redact_name, ht, htr]

theorem upsert_business_keeps (n : Norm) (s s2 : Store)
    (h : upsert_business n s = Except.ok s2) :
    s2.user = s.user ∧ s2.review = s.review := by
  unfold upsert_business at h
  split at h
  · simp only [Except.ok.injEq] at h
    subst h
    exact ⟨rfl, rfl⟩
  · rcases hn : n.business_name with _ | nm <;> rw [hn] at h
    · exact Except.noConfusion h
    · simp only [Except.ok.injEq] at h
      subst h
      exact ⟨rfl, rfl⟩

theorem upsert_user_inv (hash : String → String) (n : Norm) (s s2 : Store)
    (hsh : Shaped n) (h : upsert_user hash n s = Except.ok s2)
    (hinv : ∀ u ∈ s.user, UserInv hash u) :
    (∀ u ∈ s2.user, UserInv hash u) ∧ s2.review = s.review := by
  unfold upsert_user at h
  split at h
  · simp only [Except.ok.injEq] at h
    subst h
    refine ⟨?_, rfl⟩
    intro u hu
    rcases updateFirst_mem _ _ _ u hu with h2 | ⟨y, hy, rfl⟩
    · exact hinv u h2
    · exact userUpd_inv hash n y hsh (hinv y hy)
  · simp only [Except.ok.injEq] at h
    subst h
    refine ⟨?_, rfl⟩
    intro u hu
    rcases List.mem_append.mp hu with h2 | h2
    · exact hinv u h2
    · simp only [List.mem_singleton] at h2
      subst h2
      exact ⟨rfl, ⟨n.user_name, rfl⟩, fun _ => rfl⟩

theorem upsert_review_inv (n : Norm) (s s2 : Store)
    (h : upsert_review n s = Except.ok s2)
    (hinv : ∀ r ∈ s.review, r.review_ip_redacted = redact_ip r.review_ip_address) :
    (∀ r ∈ s2.review, r.review_ip_redacted = redact_ip r.review_ip_address) ∧
      s2.user = s.user := by
  unfold upsert_review at h
  split at h
  · split at h
    · exact Except.noConfusion h
    · exact Except.noConfusion h
    · simp only [Except.ok.injEq] at h
      subst h
      refine ⟨?_, rfl⟩
      intro r hr
      rcases updateFirst_mem _ _ _ r hr with h2 | ⟨y, hy, rfl⟩
      · exact hinv r h2
      · simp [revUpd]
  · split at h
    · exact Except.noConfusion h
    · exact Except.noConfusion h
    · exact Except.noConfusion h
    · exact Except.noConfusion h
    · split at h
      · exact Except.noConfusion h
      · split at h
        · exact Except.noConfusion h
        · simp only [Except.ok.injEq] at h
          subst h
          refine ⟨?_, rfl⟩
          intro r hr
          rcases List.mem_append.mp hr with h2 | h2
          · exact hinv r h2
          · simp only [List.mem_singleton] at h2
            subst h2
            rfl

theorem upsertRow_inv (hash : String → String) (s : Store) (n : Norm) (s2 : Store)
    (hsh : Shaped n) (h : upsertRow hash s n = Except.ok s2)
    (hinv : StoreInv hash s) : StoreInv hash s2 := by
  obtain ⟨hu, hr⟩ := hinv
  unfold upsertRow at h
  rcases hb : upsert_business n s with e | s1 <;> simp only [hb] at h
  · exact Except.noConfusion h
  · obtain ⟨hbu, hbr⟩ := upsert_business_keeps n s s1 hb
    rcases hus : upsert_user hash n s1 with e | sm <;> simp only [hus] at h
    · exact Except.noConfusion h
    · obtain ⟨hmu, hmr⟩ := upsert_user_inv hash n s1 sm hsh hus (by rw [hbu]; exact hu)
      obtain ⟨hrr, hru⟩ := upsert_review_inv n sm s2 h (by rw [hmr, hbr]; exact hr)
      exact ⟨by rw [hru]; exact hmu, hrr⟩

theorem foldlM_upsertRow_inv (hash : String → String) :
    ∀ (good : List Norm) (s s2 : Store),
      (∀ n ∈ good, Shaped n) →
      good.foldlM (upsertRow hash) s = Except.ok s2 →
      StoreInv hash s → StoreInv hash s2 := by
  intro good
  induction good with
  | nil =>
    intro s s2 _ h hinv
    simp only [List.foldlM_nil, pure, Except.pure, Except.ok.injEq] at h
    subst h
    exact hinv
  | cons n rest ih =>
    intro s s2 hsh h hinv
    simp only [List.foldlM_cons] at h
    rcases hu : upsertRow hash s n with e | s1 <;>
      simp only [hu, bind, Except.bind] at h
    · exact Except.noConfusion h
    · exact ih s1 s2 (fun n2 hn2 => hsh n2 (List.mem_cons_of_mem n hn2)) h
        (upsertRow_inv hash s n s1 (hsh n (List.mem_cons_self n rest)) hu hinv)

theorem shaped_lineage (n : Norm) (b : String) (rn : Nat) (h : Shaped n) :
    Shaped { n with source_file := some b, source_row := some rn } := h

theorem processRows_shaped (dups : List Nat) (basename : String) :
    ∀ (rows : List Raw) (rownum : Nat)
      (out : Nat × Nat × Nat × Nat × List (Nat × Raw × List String) × List Norm),
      processRows dups basename rows rownum = Except.ok out →
      ∀ n ∈ out.2.2.2.2.2, Shaped n := by
  intro rows
  induction rows with
  | nil =>
    intro rownum out h n hn
    simp only [processRows, Except.ok.injEq] at h
    subst h
    simp at hn
  | cons raw rest ih =>
    intro rownum out h n hn
    simp only [processRows] at h
    rcases hv : validate_row raw with e | tri <;> simp only [hv] at h
    · exact Except.noConfusion h
    · obtain ⟨is_ok, errs0, norm⟩ := tri
      rcases hp : processRows dups basename rest (rownum + 1) with e2 | out2 <;>
        simp only [hp] at h
      · exact Except.noConfusion h
      · obtain ⟨ri, rr, dp, df, bad, good⟩ := out2
        split at h <;> split at h <;>
          simp only [Except.ok.injEq] at h <;> subst h
        all_goals
          try exact ih (rownum + 1) (ri, rr, dp, df, bad, good) hp n hn
        all_goals
          rcases List.mem_cons.mp hn with rfl | h2
        all_goals
          try exact ih (rownum + 1) (ri, rr, dp, df, bad, good) hp n h2
        all_goals
          exact shaped_lineage norm basename rownum
            (validate_row_shaped raw is_ok errs0 norm hv)

theorem process_file_inv (hash : String → String) (conn : Store) (f : FileSrc)
    (st : Stats) (s2 : Store) (q : Option Quar)
    (h : process_file hash conn f = Except.ok (st, s2, q))
    (hinv : StoreInv hash conn) : StoreInv hash s2 := by
  by_cases haud : auditContains conn f.path f.sha256 = true
  · rw [process_file_skip hash conn f haud] at h
    simp only [Except.ok.injEq, Prod.mk.injEq] at h
    rcases h with ⟨-, rfl, -⟩
    exact hinv
  · simp only [Bool.not_eq_true] at haud
    rcases hpr : processRows (validate_batch f.rows).1 (pathBase f.path) f.rows 2 with e | tup
    · simp [process_file, haud, hpr] at h
    · obtain ⟨ri, rr, dp, df, bad, good⟩ := tup
      rcases hf : good.foldlM (upsertRow hash) conn with e2 | conn2
      · simp [process_file, haud, hpr, hf] at h
      · simp only [process_file, haud, Bool.false_eq_true, if_false, hpr, hf,
          Except.ok.injEq, Prod.mk.injEq] at h
        rcases h with ⟨-, rfl, -⟩
        have hsh : ∀ n ∈ good, Shaped n :=
          processRows_shaped (validate_batch f.rows).1 (pathBase f.path) f.rows 2
            (ri, rr, dp, df, bad, good) hpr
        have := foldlM_upsertRow_inv hash good conn conn2 hsh hf hinv
        exact ⟨this.1, this.2⟩

theorem reach_storeInv (hash : String → String) (s : Store) (h : Reach hash s) :
    StoreInv hash s := by
  induction h with
  | init => exact ⟨by simp [Store.empty], by simp [Store.empty]⟩
  | step s f st s2 q _ hpf ih => exact process_file_inv hash s f st s2 q hpf ih

theorem mem_v_reviews_private (s : Store) (row : PrivRow) :
    row ∈ v_reviews_private s ↔
      ∃ r ∈ s.review, ∃ u ∈ s.user, u.user_id = some r.user_id ∧
        row = ⟨r.review_id, r.business_id, r.user_id, r.review_date, r.review_rating,
               r.review_title, r.review_content, u.email_hash, u.user_name_redacted,
               r.review_ip_redacted⟩ := by
  simp only [v_reviews_private, List.mem_flatMap, List.mem_map, List.mem_filter]
  constructor
  · rintro ⟨r, hr, u, ⟨hu, hid⟩, rfl⟩
    exact ⟨r, hr, u, hu, by simpa using hid, rfl⟩
  · rintro ⟨r, hr, u, hu, hid, rfl⟩
    exact ⟨r, hr, u, ⟨hu, by simpa using hid⟩, rfl⟩

theorem redact_name_shape (v : Option String) :
    redact_name v = none ∨
      ∃ c : Char, redact_name v = some ⟨[c, '*', '*', '*']⟩ := by
  rcases v with _ | s
  · exact Or.inl rfl
  · show (match some s with
      | none => none
      | some s =>
        if s = "" then none
        else
          let n := pyStrip s
          if n ≠ "" then some (⟨n.data.take 1⟩ ++ "***") else none) = none ∨
      ∃ c, (match some s with
      | none => none
      | some s =>
        if s = "" then none
        else
          let n := pyStrip s
          if n ≠ "" then some (⟨n.data.take 1⟩ ++ "***") else none) =
        some ⟨[c, '*', '*', '*']⟩
    simp only
    by_cases hs : s = ""
    · simp [hs]
    · rw [if_neg hs]
      by_cases hn : pyStrip s = ""
      · simp [hn]
      · rcases hd : (pyStrip s).data with _ | ⟨c, rest⟩
        · exact absurd (congrArg String.mk hd) hn
        · right
          refine ⟨c, ?_⟩
          show (if pyStrip s ≠ "" then
            some (⟨(c :: rest).take 1⟩ ++ "***") else none) =
            some ⟨[c, '*', '*', '*']⟩
          rw [if_pos hn]
          rfl

/-- Claim C3, amended: in every store reachable through the pipeline,
every row of `v_reviews_private` exposes only derived columns — its email
column is `email_hash_value` of the stored raw email and its IP column is
`redact_ip` of the stored raw IP, unconditionally; its name column always
holds a value `redact_name` produced (so it is absent or a
first-character-plus-`***` marker, never a raw value stored as a name),
and it is `redact_name` of the currently stored raw name except in one
stale case the code permits: when an empty-string incoming reviewer name
has overwritten the stored raw name while `COALESCE` kept the previous
redacted marker, the column shows the redaction of that earlier
non-empty name. -/
theorem C3_private_view_derived_columns_amended (hash : String → String) (s : Store)
    (h : Reach hash s) :
    ∀ row ∈ v_reviews_private s, ∃ u ∈ s.user, ∃ r ∈ s.review,
      u.user_id = some row.user_id ∧ r.user_id = row.user_id ∧
      row.email_address = email_hash_value hash u.email_address ∧
      row.review_ip_address = redact_ip r.review_ip_address ∧
      (∃ v : Option String, row.user_name = redact_name v) ∧
      (row.user_name = none ∨ ∃ c : Char, row.user_name = some ⟨[c, '*', '*', '*']⟩) ∧
      (u.user_name ≠ some "" → row.user_name = redact_name u.user_name) := by
  intro row hrow
  obtain ⟨r, hr, u, hu, hid, rfl⟩ := (mem_v_reviews_private s row).mp hrow
  obtain ⟨husers, hreviews⟩ := reach_storeInv hash s h
  obtain ⟨hhash, himg, hred⟩ := husers u hu
  obtain ⟨v, hv⟩ := himg
  refine ⟨u, hu, r, hr, hid, rfl, hhash, hreviews r hr, ⟨v, hv⟩, ?_, hred⟩
  rcases redact_name_shape v with h0 | ⟨c, hc⟩
  · exact Or.inl (by rw [hv, h0])
  · exact Or.inr ⟨c, by rw [hv, hc]⟩

set_option maxRecDepth 10000 in
/-- Witness for the amended C3 at the concrete reachable store built by
processing `fileC3` from empty. -/
theorem C3_private_view_derived_columns_amended_witness :
    Reach sampleHash sC3 ∧
    (∀ row ∈ v_reviews_private sC3, ∃ u ∈ sC3.user, ∃ r ∈ sC3.review,
      u.user_id = some row.user_id ∧ r.user_id = row.user_id ∧
      row.email_address = email_hash_value sampleHash u.email_address ∧
      row.review_ip_address = redact_ip r.review_ip_address ∧
      (∃ v : Option String, row.user_name = redact_name v) ∧
      (row.user_name = none ∨ ∃ c : Char, row.user_name = some ⟨[c, '*', '*', '*']⟩) ∧
      (u.user_name ≠ some "" → row.user_name = redact_name u.user_name)) := by
  have hreach : Reach sampleHash sC3 :=
    Reach.step Store.empty fileC3 stC3 sC3 none Reach.init (by decide)
  exact ⟨hreach, C3_private_view_derived_columns_amended sampleHash sC3 hreach⟩

set_option maxRecDepth 10000 in
/-- Counterexample to claim C3 as stated: in the reachable store built
from `fileC3` (a named reviewer followed by the same reviewer with a
blank name cell), the stored raw `user_name` is the empty string but the
private view's name column still shows `A***` — which is not
`redact_name` of the stored name (`redact_name (some "") = none`). -/
theorem C3_counterexample_stale_name_marker :
    process_file sampleHash Store.empty fileC3 = Except.ok (stC3, sC3, none) ∧
    sC3.user.map UserRow.user_name = [some ""] ∧
    (v_reviews_private sC3).map PrivRow.user_name = [some "A***", some "A***"] ∧
    redact_name (some "") = none := by
  decide

/-! ## The XLSX reader (claim C9) -/

theorem rget_dictSet_self (d : Raw) (k v : String) : rget (dictSet d k v) k = some v := by
  induction d with
  | nil => simp [dictSet, rget, List.lookup]
  | cons p rest ih =>
    obtain ⟨k0, v0⟩ := p
    by_cases h : k0 = k
    · subst h
      simp [dictSet, rget, List.lookup]
    · simp only [dictSet, if_neg h, rget, List.lookup]
      cases hb : k == k0 with
      | true => exact absurd (eq_of_beq hb).symm h
      | false => exact ih

theorem rget_dictSet_other (d : Raw) (k k2 v : String) (h : k ≠ k2) :
    rget (dictSet d k2 v) k = rget d k := by
  induction d with
  | nil =>
    simp only [dictSet, rget, List.lookup]
    cases hb : k == k2 with
    | true => exact absurd (eq_of_beq hb) h
    | false => rfl
  | cons p rest ih =>
    obtain ⟨k0, v0⟩ := p
    by_cases h0 : k0 = k2
    · subst h0
      simp only [dictSet, if_pos rfl, rget, List.lookup]
      cases hb : k == k0 with
      | true => exact absurd (eq_of_beq hb) h
      | false => rfl
    · simp only [dictSet, if_neg h0, rget, List.lookup]
      cases hb : k == k0 with
      | true => rfl
      | false => exact ih

theorem rowFold_rget_of_not_mem :
    ∀ (ps : List (String × Cell)) (d : Raw) (k : String),
      k ∉ ps.map Prod.fst →
      rget (ps.foldl (fun d2 p => dictSet d2 p.1 (convertCell p.2)) d) k = rget d k := by
  intro ps
  induction ps with
  | nil => intro d k _; rfl
  | cons p rest ih =>
    intro d k hk
    obtain ⟨k0, c0⟩ := p
    simp only [List.map_cons, List.mem_cons, not_or] at hk
    rw [List.foldl_cons, ih (dictSet d k0 (convertCell c0)) k hk.2]
    exact rget_dictSet_other d k k0 (convertCell c0) hk.1

theorem rowFold_rget_of_mem :
    ∀ (ps : List (String × Cell)) (d : Raw) (k : String) (c : Cell),
      (ps.map Prod.fst).Nodup → (k, c) ∈ ps →
      rget (ps.foldl (fun d2 p => dictSet d2 p.1 (convertCell p.2)) d) k =
        some (convertCell c) := by
  intro ps
  induction ps with
  | nil => intro d k c _ hm; cases hm
  | cons p rest ih =>
    intro d k c hnd hm
    obtain ⟨k0, c0⟩ := p
    simp only [List.map_cons, List.nodup_cons] at hnd
    rcases List.mem_cons.mp hm with heq | hmem
    · have hkeq : k = k0 := congrArg Prod.fst heq
      have hceq : c = c0 := congrArg Prod.snd heq
      subst hkeq
      subst hceq
      rw [List.foldl_cons,
        rowFold_rget_of_not_mem rest (dictSet d k (convertCell c)) k hnd.1,
        rget_dictSet_self]
    · rw [List.foldl_cons]
      exact ih (dictSet d k0 (convertCell c0)) k c hnd.2 hmem

theorem rowFold_keys :
    ∀ (ps : List (String × Cell)) (d : Raw) (k : String),
      rget (ps.foldl (fun d2 p => dictSet d2 p.1 (convertCell p.2)) d) k ≠ none →
      k ∈ ps.map Prod.fst ∨ rget d k ≠ none := by
  intro ps
  induction ps with
  | nil => intro d k h; exact Or.inr h
  | cons p rest ih =>
    intro d k h
    obtain ⟨k0, c0⟩ := p
    rw [List.foldl_cons] at h
    rcases ih (dictSet d k0 (convertCell c0)) k h with h2 | h2
    · exact Or.inl (List.mem_cons_of_mem _ h2)
    · by_cases hk : k = k0
      · subst hk
        exact Or.inl (List.mem_cons_self _ _)
      · rw [rget_dictSet_other d k k0 (convertCell c0) hk] at h2
        exact Or.inr h2

theorem map_fst_zip_take {α β : Type} :
    ∀ (l1 : List α) (l2 : List β), (l1.zip l2).map Prod.fst = l1.take l2.length := by
  intro l1
  induction l1 with
  | nil => intro l2; simp
  | cons a l1 ih =>
    intro l2
    cases l2 with
    | nil => simp
    | cons b l2 => simp [List.zip_cons_cons, ih l2]

theorem zip_trunc {α β : Type} :
    ∀ (l1 : List α) (l2 l3 : List β), l1.length ≤ l2.length →
      l1.zip (l2 ++ l3) = l1.zip l2 := by
  intro l1
  induction l1 with
  | nil => intro l2 l3 _; simp
  | cons a l1 ih =>
    intro l2 l3 h
    cases l2 with
    | nil => simp at h
    | cons b l2 =>
      simp only [List.cons_append, List.zip_cons_cons]
      rw [ih l2 l3 (Nat.le_of_succ_le_succ (by simpa using h))]

theorem mem_zip_get {α β : Type} :
    ∀ (l1 : List α) (l2 : List β) (i : Nat) (h1 : i < l1.length) (h2 : i < l2.length),
      (l1.get ⟨i, h1⟩, l2.get ⟨i, h2⟩) ∈ l1.zip l2 := by
  intro l1
  induction l1 with
  | nil => intro l2 i h1 _; simp at h1
  | cons a l1 ih =>
    intro l2 i h1 h2
    cases l2 with
    | nil => simp at h2
    | cons b l2 =>
      cases i with
      | zero => exact List.mem_cons_self _ _
      | succ i =>
        exact List.mem_cons_of_mem _
          (ih l2 i (Nat.lt_of_succ_lt_succ h1) (Nat.lt_of_succ_lt_succ h2))

theorem rget_rowToDict_mem_take (header : List String) (cells : List Cell) (k : String)
    (h : rget (rowToDict header cells) k ≠ none) : k ∈ header.take cells.length := by
  unfold rowToDict at h
  rcases rowFold_keys (header.zip cells) [] k h with h2 | h2
  · rw [map_fst_zip_take] at h2
    exact h2
  · exact absurd rfl h2

theorem rget_rowToDict_get (header : List String) (cells : List Cell)
    (hnd : header.Nodup) (i : Nat) (hi : i < header.length) (hic : i < cells.length) :
    rget (rowToDict header cells) (header.get ⟨i, hi⟩) =
      some (convertCell (cells.get ⟨i, hic⟩)) := by
  unfold rowToDict
  apply rowFold_rget_of_mem
  · rw [map_fst_zip_take]
    exact List.Nodup.sublist (List.take_sublist _ _) hnd
  · exact mem_zip_get header cells i hi hic

theorem get_mem_drop {α : Type} :
    ∀ (m : Nat) (l : List α) (j : Nat) (hj : j < l.length), m ≤ j →
      l.get ⟨j, hj⟩ ∈ l.drop m := by
  intro m
  induction m with
  | zero => intro l j hj _; exact List.get_mem _ _ _
  | succ m ih =>
    intro l j hj hm
    cases l with
    | nil => simp at hj
    | cons a l =>
      cases j with
      | zero => omega
      | succ j =>
        simp only [List.drop_succ_cons]
        exact ih l j (Nat.lt_of_succ_lt_succ hj) (Nat.le_of_succ_le_succ hm)

theorem get_not_mem_take {α : Type} (l : List α) (hnd : l.Nodup)
    (m j : Nat) (hj : j < l.length) (hmj : m ≤ j) :
    l.get ⟨j, hj⟩ ∉ l.take m := by
  intro hmem
  have hsplit : l.take m ++ l.drop m = l := List.take_append_drop m l
  have hnd2 : (l.take m ++ l.drop m).Nodup := by rw [hsplit]; exact hnd
  have hdisj := (List.nodup_append.mp hnd2).2.2
  exact hdisj hmem (get_mem_drop m l j hj hmj)

/-- Claim C9: the per-cell string conversion of `read_xlsx_rows` — null
cell to empty string, datetime to a strftime ISO stamp with a `Z` suffix
exactly when the cell is timezone-aware, whole-valued float to the
integer string with no trailing `.0`, fractional float to its decimal
`str()` form, anything else to its textual form — and every data row
becomes a header-keyed dictionary in which cells beyond the header's
column count are ignored and missing trailing cells are absent keys. -/
theorem C9_reader_cell_and_row_conversion
    (hrow : List Cell) (dataRows : List (List Cell))
    (header1 : List String) (cells1 extra : List Cell)
    (header2 : List String) (cells2 : List Cell)
    (header3 : List String) (cells3 : List Cell)
    (i j : Nat) (dt : DT) (f g : PFloat) (n m : Int) (b : Bool) (s : String)
    (hne : hrow.isEmpty = false)
    (hlen : header1.length ≤ cells1.length)
    (hnd2 : header2.Nodup) (hj2 : cells2.length ≤ j) (hjh : j < header2.length)
    (hnd3 : header3.Nodup) (hi : i < header3.length) (hic : i < cells3.length)
    (hf : f.whole = some m) (hg : g.whole = none) :
    (read_xlsx_rows (hrow :: dataRows)).2 =
      dataRows.map (rowToDict (read_xlsx_rows (hrow :: dataRows)).1) ∧
    convertCell Cell.cnone = "" ∧
    convertCell (Cell.cdatetime dt) =
      ⟨fmtStamp dt.year dt.month dt.day dt.hour dt.minute dt.second⟩ ++
        (if dt.tz.isSome then "Z" else "") ∧
    convertCell (Cell.cint n) = toString n ∧
    convertCell (Cell.cfloat f) = toString m ∧
    convertCell (Cell.cfloat g) = g.text ∧
    convertCell (Cell.cbool b) = pyStrOfCell (Cell.cbool b) ∧
    convertCell (Cell.cstr s) = s ∧
    rowToDict header1 (cells1 ++ extra) = rowToDict header1 cells1 ∧
    rget (rowToDict header3 cells3) (header3.get ⟨i, hi⟩) =
      some (convertCell (cells3.get ⟨i, hic⟩)) ∧
    rget (rowToDict header2 cells2) (header2.get ⟨j, hjh⟩) = none := by
  refine ⟨?_, rfl, rfl, rfl, ?_, ?_, rfl, rfl, ?_, ?_, ?_⟩
  · simp [read_xlsx_rows, hne]
  · simp [convertCell, hf]
  · simp [convertCell, hg]
  · unfold rowToDict
    rw [zip_trunc header1 cells1 extra hlen]
  · exact rget_rowToDict_get header3 cells3 hnd3 i hi hic
  · by_cases h : rget (rowToDict header2 cells2) (header2.get ⟨j, hjh⟩) = none
    · exact h
    · exact absurd (rget_rowToDict_mem_take header2 cells2 _ h)
        (get_not_mem_take header2 hnd2 cells2.length j hjh hj2)

set_option maxRecDepth 10000 in
/-- Witness for C9 at concrete inputs: a one-column sheet, a two-name
header with a surplus cell, a short row with a missing trailing cell, an
aware datetime, a whole and a fractional float. -/
theorem C9_reader_cell_and_row_conversion_witness :
    (([Cell.cstr " A "] : List Cell).isEmpty = false ∧
     (["A", "B"] : List String).length ≤ ([Cell.cnone, Cell.cint 1] : List Cell).length ∧
     (["A", "B"] : List String).Nodup ∧
     ([Cell.cnone] : List Cell).length ≤ 1 ∧ 1 < (["A", "B"] : List String).length ∧
     0 < (["A", "B"] : List String).length ∧ 0 < ([Cell.cnone, Cell.cint 1] : List Cell).length ∧
     (PFloat.mk "3.0" (some 3)).whole = some 3 ∧ (PFloat.mk "3.5" none).whole = none) ∧
    ((read_xlsx_rows ([Cell.cstr " A "] :: [[Cell.cint 7]])).2 =
       [[Cell.cint 7]].map (rowToDict (read_xlsx_rows ([Cell.cstr " A "] :: [[Cell.cint 7]])).1) ∧
     convertCell Cell.cnone = "" ∧
     convertCell (Cell.cdatetime (DT.mk 2024 1 2 3 4 5 0 (some 0))) =
       ⟨fmtStamp 2024 1 2 3 4 5⟩ ++ (if (some (0 : Int)).isSome then "Z" else "") ∧
     convertCell (Cell.cint 7) = toString (7 : Int) ∧
     convertCell (Cell.cfloat (PFloat.mk "3.0" (some 3))) = toString (3 : Int) ∧
     convertCell (Cell.cfloat (PFloat.mk "3.5" none)) = (PFloat.mk "3.5" none).text ∧
     convertCell (Cell.cbool true) = pyStrOfCell (Cell.cbool true) ∧
     convertCell (Cell.cstr "x") = "x" ∧
     rowToDict ["A", "B"] ([Cell.cnone, Cell.cint 1] ++ [Cell.cstr "y"]) =
       rowToDict ["A", "B"] [Cell.cnone, Cell.cint 1] ∧
     rget (rowToDict ["A", "B"] [Cell.cnone, Cell.cint 1])
         ((["A", "B"] : List String).get ⟨0, by decide⟩) =
       some (convertCell (([Cell.cnone, Cell.cint 1] : List Cell).get ⟨0, by decide⟩)) ∧
     rget (rowToDict ["A", "B"] [Cell.cnone])
         ((["A", "B"] : List String).get ⟨1, by decide⟩) = none) :=
  ⟨by refine ⟨rfl, by decide, by decide, by decide, by decide, by decide, by decide, rfl, rfl⟩,
   C9_reader_cell_and_row_conversion [Cell.cstr " A "] [[Cell.cint 7]]
     ["A", "B"] [Cell.cnone, Cell.cint 1] [Cell.cstr "y"]
     ["A", "B"] [Cell.cnone] ["A", "B"] [Cell.cnone, Cell.cint 1]
     0 1 (DT.mk 2024 1 2 3 4 5 0 (some 0)) (PFloat.mk "3.0" (some 3))
     (PFloat.mk "3.5" none) 7 3 true "x"
     rfl (by decide) (by decide) (by decide) (by decide) (by decide) (by decide)
     (by decide) rfl rfl⟩

/-! ## Date normalization (claim C6) -/

theorem isPySpace_digitChar (d : Nat) (h : d < 10) : isPySpace (digitChar d) = false := by
  interval_cases d <;> decide

theorem digitChar_beq_dash (d : Nat) (h : d < 10) : (digitChar d == '-') = false := by
  interval_cases d <;> decide

theorem digitChar_beq_plus (d : Nat) (h : d < 10) : (digitChar d == '+') = false := by
  interval_cases d <;> decide

theorem stripChars_eq_self (l : List Char)
    (h1 : ∀ a, l.head? = some a → isPySpace a = false)
    (h2 : ∀ a, l.getLast? = some a → isPySpace a = false) :
    stripChars l = l := by
  unfold stripChars
  rw [dropWhile_eq_self_of_head isPySpace l h1]
  rw [dropWhile_eq_self_of_head isPySpace l.reverse
    (fun a ha => h2 a (by rwa [List.head?_reverse] at ha))]
  exact List.reverse_reverse l

theorem parseDigitsU_pad2 (n : Nat) (h : n ≤ 99) : parseDigitsU (pad2 n) = some n := by
  simp only [pad2, parseDigitsU]
  rw [if_pos (digitChar_isDigit _ (Nat.mod_lt _ (by norm_num)))]
  simp only [parseDigitsU.goDigits]
  rw [if_pos (digitChar_isDigit _ (Nat.mod_lt _ (by norm_num)))]
  rw [digitVal_digitChar _ (Nat.mod_lt _ (by norm_num)),
    digitVal_digitChar _ (Nat.mod_lt _ (by norm_num))]
  congr 1
  omega

theorem parseDigitsU_pad4 (n : Nat) (h : n ≤ 9999) : parseDigitsU (pad4 n) = some n := by
  simp only [pad4, parseDigitsU]
  rw [if_pos (digitChar_isDigit _ (Nat.mod_lt _ (by norm_num)))]
  simp only [parseDigitsU.goDigits]
  rw [if_pos (digitChar_isDigit _ (Nat.mod_lt _ (by norm_num)))]
  rw [if_pos (digitChar_isDigit _ (Nat.mod_lt _ (by norm_num)))]
  rw [if_pos (digitChar_isDigit _ (Nat.mod_lt _ (by norm_num)))]
  rw [digitVal_digitChar _ (Nat.mod_lt _ (by norm_num)),
    digitVal_digitChar _ (Nat.mod_lt _ (by norm_num)),
    digitVal_digitChar _ (Nat.mod_lt _ (by norm_num)),
    digitVal_digitChar _ (Nat.mod_lt _ (by norm_num))]
  congr 1
  omega

theorem stripChars_pad2 (n : Nat) : stripChars (pad2 n) = pad2 n := by
  apply stripChars_eq_self
  · intro a ha
    simp only [pad2, List.head?_cons, Option.some.injEq] at ha
    rw [← ha]
    exact isPySpace_digitChar _ (Nat.mod_lt _ (by norm_num))
  · intro a ha
    simp only [pad2] at ha
    have : digitChar (n % 10) = a := by
      simpa using ha
    rw [← this]
    exact isPySpace_digitChar _ (Nat.mod_lt _ (by norm_num))

theorem stripChars_pad4 (n : Nat) : stripChars (pad4 n) = pad4 n := by
  apply stripChars_eq_self
  · intro a ha
    simp only [pad4, List.head?_cons, Option.some.injEq] at ha
    rw [← ha]
    exact isPySpace_digitChar _ (Nat.mod_lt _ (by norm_num))
  · intro a ha
    simp only [pad4] at ha
    have : digitChar (n % 10) = a := by
      simpa using ha
    rw [← this]
    exact isPySpace_digitChar _ (Nat.mod_lt _ (by norm_num))

theorem pyInt_pads (l : List Char) (hs : stripChars l = l)
    (hd : ∀ a, l.head? = some a → a.isDigit = true) :
    pyInt ⟨l⟩ = (parseDigitsU l).map Int.ofNat := by
  unfold pyInt
  show (match stripChars l with
    | '+' :: r => (parseDigitsU r).map Int.ofNat
    | '-' :: r => (parseDigitsU r).map (fun n => -(n : Int))
    | r => (parseDigitsU r).map Int.ofNat) = _
  rw [hs]
  split
  · have := hd '+' rfl
    exact absurd this (by decide)
  · have := hd '-' rfl
    exact absurd this (by decide)
  · rfl

theorem pyInt_pad2 (n : Nat) (h : n ≤ 99) : pyInt ⟨pad2 n⟩ = some (n : Int) := by
  rw [pyInt_pads (pad2 n) (stripChars_pad2 n)]
  · rw [parseDigitsU_pad2 n h]
    rfl
  · intro a ha
    simp only [pad2, List.head?_cons, Option.some.injEq] at ha
    rw [← ha]
    exact digitChar_isDigit _ (Nat.mod_lt _ (by norm_num))

theorem pyInt_pad4 (n : Nat) (h : n ≤ 9999) : pyInt ⟨pad4 n⟩ = some (n : Int) := by
  rw [pyInt_pads (pad4 n) (stripChars_pad4 n)]
  · rw [parseDigitsU_pad4 n h]
    rfl
  · intro a ha
    simp only [pad4, List.head?_cons, Option.some.injEq] at ha
    rw [← ha]
    exact digitChar_isDigit _ (Nat.mod_lt _ (by norm_num))

theorem isoShape_fmtList (y mo da h mi s : Nat) :
    isIsoZShape (fmtList y mo da h mi s) = true := by
  simp [fmtList, fmtStamp, pad4, pad2, isIsoZShape,
    digitChar_isDigit _ (Nat.mod_lt _ (by norm_num : (0:Nat) < 10))]

theorem pyInt_two (n : Nat) (h : n ≤ 99) :
    pyInt ⟨[digitChar (n / 10 % 10), digitChar (n % 10)]⟩ = some (n : Int) :=
  pyInt_pad2 n h

theorem pyInt_four (n : Nat) (h : n ≤ 9999) :
    pyInt ⟨[digitChar (n / 1000 % 10), digitChar (n / 100 % 10),
            digitChar (n / 10 % 10), digitChar (n % 10)]⟩ = some (n : Int) :=
  pyInt_pad4 n h

theorem findIdxQ_none {α : Type} (p : α → Bool) :
    ∀ (l : List α) (i : Nat), (∀ b ∈ l, p b = false) → List.findIdx? p l i = none := by
  intro l
  induction l with
  | nil => intro i _; rfl
  | cons a l ih =>
    intro i hb
    rw [List.findIdx?_cons, hb a (List.mem_cons_self a l)]
    simp only [Bool.false_eq_true, if_false]
    exact ih (i + 1) fun b h2 => hb b (List.mem_cons_of_mem a h2)

theorem indexOf?_none (l : List Char) (a : Char)
    (h : ∀ b ∈ l, (b == a) = false) : l.indexOf? a = none :=
  findIdxQ_none (· == a) l 0 h

theorem parseIsoDate_d10 (y mo da : Nat) (hy : y ≤ 9999) (hmo : mo ≤ 99) (hda : da ≤ 99) :
    parseIsoDate [digitChar (y / 1000 % 10), digitChar (y / 100 % 10),
      digitChar (y / 10 % 10), digitChar (y % 10), '-',
      digitChar (mo / 10 % 10), digitChar (mo % 10), '-',
      digitChar (da / 10 % 10), digitChar (da % 10)] =
      some ((y : Int), (mo : Int), (da : Int)) := by
  unfold parseIsoDate
  simp [pyInt_four y hy, pyInt_two mo hmo, pyInt_two da hda]

theorem parseHMSF_t8 (h mi se : Nat) (hh : h ≤ 99) (hmi2 : mi ≤ 99) (hse : se ≤ 99) :
    parseHMSF [digitChar (h / 10 % 10), digitChar (h % 10), ':',
      digitChar (mi / 10 % 10), digitChar (mi % 10), ':',
      digitChar (se / 10 % 10), digitChar (se % 10)] =
      some ((h : Int), (mi : Int), (se : Int), 0) := by
  unfold parseHMSF
  simp [pyInt_two h hh, pyInt_two mi hmi2, pyInt_two se hse]

theorem parseIsoTime_t8 (h mi se : Nat) (hh : h ≤ 99) (hmi2 : mi ≤ 99) (hse : se ≤ 99) :
    parseIsoTime [digitChar (h / 10 % 10), digitChar (h % 10), ':',
      digitChar (mi / 10 % 10), digitChar (mi % 10), ':',
      digitChar (se / 10 % 10), digitChar (se % 10)] =
      some ((h : Int), (mi : Int), (se : Int), 0, none) := by
  have hdash : [digitChar (h / 10 % 10), digitChar (h % 10), ':',
      digitChar (mi / 10 % 10), digitChar (mi % 10), ':',
      digitChar (se / 10 % 10), digitChar (se % 10)].indexOf? '-' = none := by
    apply indexOf?_none
    intro b hb
    simp only [List.mem_cons, List.not_mem_nil, or_false] at hb
    rcases hb with rfl | rfl | rfl | rfl | rfl | rfl | rfl | rfl
    · exact digitChar_beq_dash _ (Nat.mod_lt _ (by norm_num))
    · exact digitChar_beq_dash _ (Nat.mod_lt _ (by norm_num))
    · decide
    · exact digitChar_beq_dash _ (Nat.mod_lt _ (by norm_num))
    · exact digitChar_beq_dash _ (Nat.mod_lt _ (by norm_num))
    · decide
    · exact digitChar_beq_dash _ (Nat.mod_lt _ (by norm_num))
    · exact digitChar_beq_dash _ (Nat.mod_lt _ (by norm_num))
  have hplus : [digitChar (h / 10 % 10), digitChar (h % 10), ':',
      digitChar (mi / 10 % 10), digitChar (mi % 10), ':',
      digitChar (se / 10 % 10), digitChar (se % 10)].indexOf? '+' = none := by
    apply indexOf?_none
    intro b hb
    simp only [List.mem_cons, List.not_mem_nil, or_false] at hb
    rcases hb with rfl | rfl | rfl | rfl | rfl | rfl | rfl | rfl
    · exact digitChar_beq_plus _ (Nat.mod_lt _ (by norm_num))
    · exact digitChar_beq_plus _ (Nat.mod_lt _ (by norm_num))
    · decide
    · exact digitChar_beq_plus _ (Nat.mod_lt _ (by norm_num))
    · exact digitChar_beq_plus _ (Nat.mod_lt _ (by norm_num))
    · decide
    · exact digitChar_beq_plus _ (Nat.mod_lt _ (by norm_num))
    · exact digitChar_beq_plus _ (Nat.mod_lt _ (by norm_num))
  unfold parseIsoTime
  simp only [hdash, hplus]
  rw [parseHMSF_t8 h mi se hh hmi2 hse]
  simp

theorem fromisoformatDT_stamp (y mo da h mi se : Nat)
    (hy : y ≤ 9999) (hmo : mo ≤ 99) (hda : da ≤ 99) (hh : h ≤ 99)
    (hmi2 : mi ≤ 99) (hse : se ≤ 99) :
    fromisoformatDT (fmtStamp y mo da h mi se) =
      mkDT (y : Int) (mo : Int) (da : Int) (h : Int) (mi : Int) (se : Int) 0 none := by
  have ht : (fmtStamp y mo da h mi se).take 10 =
      [digitChar (y / 1000 % 10), digitChar (y / 100 % 10),
       digitChar (y / 10 % 10), digitChar (y % 10), '-',
       digitChar (mo / 10 % 10), digitChar (mo % 10), '-',
       digitChar (da / 10 % 10), digitChar (da % 10)] := by
    simp [fmtStamp, pad4, pad2]
  have hd : (fmtStamp y mo da h mi se).drop 11 =
      [digitChar (h / 10 % 10), digitChar (h % 10), ':',
       digitChar (mi / 10 % 10), digitChar (mi % 10), ':',
       digitChar (se / 10 % 10), digitChar (se % 10)] := by
    simp [fmtStamp, pad4, pad2]
  unfold fromisoformatDT
  rw [ht, hd, parseIsoDate_d10 y mo da hy hmo hda]
  simp only [Option.bind]
  rw [parseIsoTime_t8 h mi se hh hmi2 hse]

theorem daysInMonth_le (y m : Nat) : daysInMonth y m ≤ 31 := by
  unfold daysInMonth
  split <;> (try split) <;> omega

theorem mkDT_pos (y mo da h mi se : Nat)
    (hy1 : 1 ≤ y) (hy : y ≤ 9999) (hmo1 : 1 ≤ mo) (hmo : mo ≤ 12)
    (hda1 : 1 ≤ da) (hda : da ≤ daysInMonth y mo)
    (hh : h ≤ 23) (hmi2 : mi ≤ 59) (hse : se ≤ 59) :
    mkDT (y : Int) (mo : Int) (da : Int) (h : Int) (mi : Int) (se : Int) 0 none =
      some ⟨y, mo, da, h, mi, se, 0, none⟩ := by
  unfold mkDT
  rw [if_pos]
  · simp
  · simp only [Int.toNat_natCast]
    refine ⟨by omega, by omega, by omega, by omega, by omega, by omega, by omega,
      by omega, by omega, by omega, by omega, by omega, by omega, by omega⟩

theorem mkDT_some_inv (y mo da h mi se us : Int) (tz : Option Int) (dt : DT)
    (hmk : mkDT y mo da h mi se us tz = some dt) : DTB dt := by
  unfold mkDT at hmk
  split at hmk
  · rename_i hc
    simp only [Option.some.injEq] at hmk
    subst hmk
    unfold DTB
    dsimp only
    omega
  · exact Option.noConfusion hmk

theorem fastIso_canonical (y mo da h mi se : Nat)
    (hy1 : 1 ≤ y) (hy : y ≤ 9999) (hmo1 : 1 ≤ mo) (hmo : mo ≤ 12)
    (hda1 : 1 ≤ da) (hda : da ≤ daysInMonth y mo)
    (hh : h ≤ 23) (hmi2 : mi ≤ 59) (hse : se ≤ 59) :
    fastIso (fmtList y mo da h mi se) = some ⟨fmtList y mo da h mi se⟩ := by
  unfold fastIso fmtList
  rw [List.getLast?_concat, List.dropLast_concat, if_pos rfl]
  rw [fromisoformatDT_stamp y mo da h mi se hy (by omega)
    (by have := daysInMonth_le y mo; omega) (by omega) (by omega) (by omega)]
  rw [mkDT_pos y mo da h mi se hy1 hy hmo1 hmo hda1 hda hh hmi2 hse]
  rfl

theorem head_fmtList (y mo da h mi se : Nat) (a : Char)
    (ha : (fmtList y mo da h mi se).head? = some a) : isPySpace a = false := by
  simp only [fmtList, fmtStamp, pad4, List.cons_append, List.head?_cons,
    Option.some.injEq] at ha
  rw [← ha]
  exact isPySpace_digitChar _ (Nat.mod_lt _ (by norm_num))

theorem last_fmtList (y mo da h mi se : Nat) (a : Char)
    (ha : (fmtList y mo da h mi se).getLast? = some a) : isPySpace a = false := by
  unfold fmtList at ha
  rw [List.getLast?_concat] at ha
  simp only [Option.some.injEq] at ha
  rw [← ha]
  decide

theorem reparse_canonical (y mo da h mi se : Nat)
    (hy1 : 1 ≤ y) (hy : y ≤ 9999) (hmo1 : 1 ≤ mo) (hmo : mo ≤ 12)
    (hda1 : 1 ≤ da) (hda : da ≤ daysInMonth y mo)
    (hh : h ≤ 23) (hmi2 : mi ≤ 59) (hse : se ≤ 59) :
    parse_date_to_iso_utc ⟨fmtList y mo da h mi se⟩ =
      some ⟨fmtList y mo da h mi se⟩ := by
  have hne : (⟨fmtList y mo da h mi se⟩ : String) ≠ "" := by
    intro hc
    have hdata : fmtList y mo da h mi se = [] := congrArg String.data hc
    simp [fmtList, fmtStamp, pad4] at hdata
  have hstrip : stripChars (fmtList y mo da h mi se) = fmtList y mo da h mi se :=
    stripChars_eq_self _ (head_fmtList y mo da h mi se) (last_fmtList y mo da h mi se)
  unfold parse_date_to_iso_utc
  rw [if_neg hne]
  show (match fastIso (stripChars (fmtList y mo da h mi se)) with
    | some r => some r
    | none => (tryPatterns datePatterns
        (stripChars (fmtList y mo da h mi se))).map finishIso) = _
  rw [hstrip, fastIso_canonical y mo da h mi se hy1 hy hmo1 hmo hda1 hda hh hmi2 hse]

theorem astimezoneUtc_inv (dt : DT) (off : Int) (dt2 : DT)
    (h : astimezoneUtc dt off = some dt2) : DTB dt2 := by
  unfold astimezoneUtc at h
  exact mkDT_some_inv _ _ _ _ _ _ _ _ _ h

theorem fromisoformatDT_inv (l : List Char) (dt : DT)
    (h : fromisoformatDT l = some dt) : DTB dt := by
  unfold fromisoformatDT at h
  rcases hpd : parseIsoDate (l.take 10) with _ | tri <;> rw [hpd] at h
  · exact Option.noConfusion h
  · obtain ⟨y, mo, da⟩ := tri
    simp only [Option.bind] at h
    split at h
    · exact mkDT_some_inv _ _ _ _ _ _ _ _ _ h
    · rcases hpt : parseIsoTime _ with _ | tup <;> rw [hpt] at h
      · exact Option.noConfusion h
      · obtain ⟨h2, mi2, se2, us2, tz2⟩ := tup
        simp only [Option.bind] at h
        exact mkDT_some_inv _ _ _ _ _ _ _ _ _ h

theorem fastIso_inv (l : List Char) (r : String) (h : fastIso l = some r) :
    ∃ dt, DTB dt ∧ r = finishIso dt := by
  unfold fastIso at h
  split at h
  · rcases hf : fromisoformatDT l.dropLast with _ | dt <;> rw [hf] at h
    · exact Option.noConfusion h
    · simp only [Option.map_some', Option.some.injEq] at h
      exact ⟨dt, fromisoformatDT_inv _ _ hf, h.symm⟩
  · rcases hf : fromisoformatDT (normOffsetColon l) with _ | dt <;> rw [hf] at h
    · exact Option.noConfusion h
    · simp only [Option.bind] at h
      rcases htz : dt.tz with _ | off <;> simp only [htz] at h
      · simp only [Option.some.injEq] at h
        exact ⟨dt, fromisoformatDT_inv _ _ hf, h.symm⟩
      · rcases ha : astimezoneUtc dt off with _ | dt2 <;> rw [ha] at h
        · exact Option.noConfusion h
        · simp only [Option.map_some', Option.some.injEq] at h
          exact ⟨dt2, astimezoneUtc_inv dt off dt2 ha, h.symm⟩

theorem tryPatterns_inv : ∀ (ps : List (List FTok)) (l : List Char) (dt : DT),
    tryPatterns ps l = some dt → DTB dt := by
  intro ps
  induction ps with
  | nil => intro l dt h; exact Option.noConfusion h
  | cons p ps ih =>
    intro l dt h
    unfold tryPatterns at h
    rcases htp : tryPattern p l with _ | dt2 <;> rw [htp] at h
    · exact ih l dt h
    · simp only [Option.some.injEq] at h
      subst h
      unfold tryPattern at htp
      rcases hm : matchToks p l {} with _ | st <;> rw [hm] at htp
      · exact Option.noConfusion htp
      · simp only [Option.bind] at htp
        exact mkDT_some_inv _ _ _ _ _ _ _ _ _ htp

theorem parse_date_some_inv (s r : String)
    (h : parse_date_to_iso_utc s = some r) : ∃ dt, DTB dt ∧ r = finishIso dt := by
  unfold parse_date_to_iso_utc at h
  split at h
  · exact Option.noConfusion h
  · rcases hf : fastIso (stripChars s.data) with _ | r2 <;> simp only [hf] at h
    · rcases ht : tryPatterns datePatterns (stripChars s.data) with _ | dt <;>
        rw [ht] at h
      · exact Option.noConfusion h
      · simp only [Option.map_some', Option.some.injEq] at h
        exact ⟨dt, tryPatterns_inv datePatterns _ dt ht, h.symm⟩
    · simp only [Option.some.injEq] at h
      subst h
      exact fastIso_inv _ _ hf

/-- Claim C6: every successful `parse_date_to_iso_utc` output is a string
of the exact shape `YYYY-MM-DDTHH:MM:SSZ` (whole seconds, terminal `Z`);
when neither the ISO fast path nor any pattern of the fixed list parses
the stripped input the function returns `none` (it is a total function,
so nothing escapes); and the normalizer is idempotent: feeding any of its
own outputs back produces that same output. -/
theorem C6_date_normalizer_shape_and_idempotent (s r : String)
    (h : parse_date_to_iso_utc s = some r) :
    isIsoZShape r.data = true ∧ parse_date_to_iso_utc r = some r ∧
    (∀ t : String, fastIso (stripChars t.data) = none →
      tryPatterns datePatterns (stripChars t.data) = none →
      parse_date_to_iso_utc t = none) := by
  obtain ⟨dt, hb, rrfl⟩ := parse_date_some_inv s r h
  subst rrfl
  obtain ⟨h1, h2, h3, h4, h5, h6, h7, h8, h9⟩ := hb
  refine ⟨?_, ?_, ?_⟩
  · show isIsoZShape (fmtList dt.year dt.month dt.day dt.hour dt.minute dt.second) = true
    exact isoShape_fmtList _ _ _ _ _ _
  · exact reparse_canonical dt.year dt.month dt.day dt.hour dt.minute dt.second
      h1 h2 h3 h4 h5 h6 h7 h8 h9
  · intro t hfa htp
    by_cases ht : t = ""
    · simp [parse_date_to_iso_utc, ht]
    · simp [parse_date_to_iso_utc, ht, hfa, htp]

set_option maxRecDepth 10000 in
/-- Witness for C6 at the concrete input `2024-01-02`, which normalizes
to `2024-01-02T00:00:00Z`. -/
theorem C6_date_normalizer_shape_and_idempotent_witness :
    parse_date_to_iso_utc "2024-01-02" = some "2024-01-02T00:00:00Z" ∧
    (isIsoZShape ("2024-01-02T00:00:00Z").data = true ∧
     parse_date_to_iso_utc "2024-01-02T00:00:00Z" = some "2024-01-02T00:00:00Z" ∧
     (∀ t : String, fastIso (stripChars t.data) = none →
       tryPatterns datePatterns (stripChars t.data) = none →
       parse_date_to_iso_utc t = none)) :=
  ⟨by decide,
   C6_date_normalizer_shape_and_idempotent "2024-01-02" "2024-01-02T00:00:00Z"
     (by decide)⟩

end TP
